import Mathlib

/-!
Verification development for the `bestip` network-quality testing tool.

The Python sources are shallowly embedded: measured quantities (delays,
loss rates, scores, coefficients of variation) become rationals, Python
`int()` truncation becomes an explicit floor/ceil split, dictionaries with
optional keys become structures with `Option` fields, and each method of
the analyzers (`StatisticalAnalyzer`, `ProxyScoreCalculator`) and of the
core tester (`AdvancedIPTester`) that the specification talks about is
translated into a Lean function of the same name.
-/

namespace Bestip

/-- Python `int()` applied to a real-valued expression: truncation toward
zero, i.e. ceiling for negative inputs and floor otherwise. -/
def pyInt (q : ℚ) : ℤ := if q < 0 then ⌈q⌉ else ⌊q⌋

lemma pyInt_of_nonneg {q : ℚ} (h : 0 ≤ q) : pyInt q = ⌊q⌋ := by
  unfold pyInt
  rw [if_neg (not_lt.mpr h)]

lemma floor_bounds {a b : ℤ} {x : ℚ} (h1 : (a : ℚ) ≤ x) (h2 : x < (b : ℚ) + 1) :
    a ≤ ⌊x⌋ ∧ ⌊x⌋ ≤ b := by
  constructor
  · exact Int.le_floor.mpr h1
  · have : ⌊x⌋ < b + 1 := by
      apply Int.floor_lt.mpr
      push_cast
      linarith
    omega

namespace StatisticalAnalyzer

/-- `StatisticalAnalyzer.calculate_stability_score`: maps a coefficient of
variation (percent) to an integer stability score via a piecewise-linear
penalty, then truncates with `int(max(0, min(100, score)))`. -/
def calculate_stability_score (cv : ℚ) : ℤ :=
  pyInt (max 0 (min 100 (
    if cv < 5 then 100 - cv
    else if cv < 10 then 90 - (cv - 5) * 2
    else if cv < 20 then 80 - (cv - 10) * 2
    else if cv < 30 then 60 - (cv - 20) * 2
    else max 0 (40 - (cv - 30)))))

/-- The per-sample t-critical-value table used for n ≤ 30
(`t_values.get(n, 2.0)` in the source). -/
def t_table (n : ℕ) : ℚ :=
  match n with
  | 2 => 12.706
  | 3 => 4.303
  | 4 => 3.182
  | 5 => 2.776
  | 6 => 2.571
  | 7 => 2.447
  | 8 => 2.365
  | 9 => 2.306
  | 10 => 2.262
  | _ => 2

/-- Critical value chosen by `calculate_confidence_interval`: a normal
approximation for n > 30 and the small-sample table otherwise. -/
def t_value (n : ℕ) (confidence : ℚ) : ℚ :=
  if 30 < n then
    if 0.99 ≤ confidence then 2.576
    else if 0.95 ≤ confidence then 1.96
    else 1.645
  else t_table n

/-- `StatisticalAnalyzer.calculate_confidence_interval`: for fewer than two
samples returns `(0.0, 0.0)`; otherwise mean ± t·stdev/√n with the sample
standard deviation (denominator n−1). -/
noncomputable def calculate_confidence_interval (data : List ℚ) (confidence : ℚ) : ℝ × ℝ :=
  if data.length < 2 then (0, 0)
  else
    let n : ℕ := data.length
    let mean : ℚ := data.sum / n
    let stdev : ℝ := Real.sqrt (((data.map (fun x => (x - mean) ^ 2)).sum : ℚ) / ((n : ℝ) - 1))
    let se : ℝ := stdev / Real.sqrt n
    let margin : ℝ := (t_value n confidence : ℝ) * se
    ((mean : ℝ) - margin, (mean : ℝ) + margin)

/-- The body of `_filter_outliers_iqr` before the final emptiness fallback:
Q1/Q3 at the `n // 4` and `3 * n // 4` indices of the sorted data, keep the
values inside `[Q1 - 1.5·IQR, Q3 + 1.5·IQR]`. -/
def iqr_filtered (data : List ℚ) : List ℚ :=
  let sorted_data := List.insertionSort (· ≤ ·) data
  let n := data.length
  let q1 := sorted_data.getD (n / 4) 0
  let q3 := sorted_data.getD (3 * n / 4) 0
  let iqr := q3 - q1
  let lower_bound := q1 - 3 / 2 * iqr
  let upper_bound := q3 + 3 / 2 * iqr
  data.filter (fun x => decide (lower_bound ≤ x) && decide (x ≤ upper_bound))

/-- `StatisticalAnalyzer._filter_outliers_iqr`: IQR filtering with the
`filtered if filtered else data` fallback. -/
def filter_outliers_iqr (data : List ℚ) : List ℚ :=
  if iqr_filtered data = [] then data else iqr_filtered data

/-- `StatisticalAnalyzer.filter_outliers` specialized to `method = 'iqr'`:
inputs with fewer than 3 values (this subsumes the `not data` check) are
returned unchanged, otherwise `_filter_outliers_iqr` runs. -/
def filter_outliers_iqr_method (data : List ℚ) : List ℚ :=
  if data.length < 3 then data else filter_outliers_iqr data

lemma iqr_filtered_small (data : List ℚ) (h : data.length < 3) : iqr_filtered data = data := by
  match data with
  | [] => rfl
  | [a] =>
    simp only [iqr_filtered, List.insertionSort, List.orderedInsert, List.length_cons,
      List.length_nil, List.getD, List.filter]
    norm_num
  | [a, b] =>
    by_cases hab : a ≤ b
    · have h2 : a ≤ b + 3 / 2 * (b - a) := by linarith
      simp only [iqr_filtered, List.insertionSort, List.orderedInsert, if_pos hab,
        List.length_cons, List.length_nil, List.getD, List.filter]
      norm_num [hab, h2]
    · push_neg at hab
      have hba : b ≤ a := le_of_lt hab
      have h2 : b ≤ a + 3 / 2 * (a - b) := by linarith
      simp only [iqr_filtered, List.insertionSort, List.orderedInsert, List.length_cons,
        List.length_nil, List.getD, List.filter]
      rw [if_neg (not_le.mpr hab)]
      norm_num [hba, h2]
  | a :: b :: c :: rest => simp at h; omega

/-- C3: for every non-empty input, `filter_outliers` with the IQR method
returns a non-empty list, and the result is exactly the IQR-band filter
with the fall-back to the original data when the filter would drop
everything (inputs shorter than 3 are returned unchanged by the source,
which coincides with the IQR description because such inputs survive the
IQR band entirely). -/
theorem filter_outliers_iqr_spec (data : List ℚ) (h : data ≠ []) :
    filter_outliers_iqr_method data ≠ [] ∧
      filter_outliers_iqr_method data =
        (if iqr_filtered data = [] then data else iqr_filtered data) := by
  constructor
  · unfold filter_outliers_iqr_method filter_outliers_iqr
    split_ifs with h1 h2
    · exact h
    · exact h
    · exact h2
  · by_cases hlen : data.length < 3
    · unfold filter_outliers_iqr_method
      rw [if_pos hlen, iqr_filtered_small data hlen, if_neg h]
    · unfold filter_outliers_iqr_method filter_outliers_iqr
      rw [if_neg hlen]

/-- Witness for C3 at the concrete input `[1, 2, 100]`. -/
theorem filter_outliers_iqr_spec_witness :
    filter_outliers_iqr_method [1, 2, 100] ≠ [] ∧
      filter_outliers_iqr_method [1, 2, 100] =
        (if iqr_filtered [1, 2, 100] = [] then [1, 2, 100] else iqr_filtered [1, 2, 100]) :=
  filter_outliers_iqr_spec [1, 2, 100] (by decide)

/-- C8 counterexample: at `cv = 5` (inside the claimed band `5 ≤ cv < 10`)
the code returns exactly 90, while the claim restricts that band to
`[80, 90)`. -/
theorem calculate_stability_score_boundary :
    (5 ≤ (5 : ℚ) ∧ (5 : ℚ) < 10) ∧ calculate_stability_score 5 = 90 ∧
      ¬ calculate_stability_score 5 < 90 := by
  refine ⟨⟨le_refl _, by norm_num⟩, ?_, ?_⟩ <;>
    norm_num [calculate_stability_score, pyInt]

/-- C8 amended: for every `cv ≥ 0` the stability score is an integer in
`[0, 100]` lying in a closed band per range of `cv`: `cv < 5 → [95, 100]`,
`5 ≤ cv < 10 → [80, 90]`, `10 ≤ cv < 20 → [60, 80]`, `20 ≤ cv < 30 →
[40, 60]`, and for `cv ≥ 30` it equals `⌊max 0 (40 − (cv − 30))⌋` (the
upper ends of the four linear bands are attained at the left edge of each
range, so the half-open upper bounds of the original claim are closed
here). -/
theorem calculate_stability_score_bands (cv : ℚ) (h : 0 ≤ cv) :
    (0 ≤ calculate_stability_score cv ∧ calculate_stability_score cv ≤ 100)
    ∧ (cv < 5 → 95 ≤ calculate_stability_score cv ∧ calculate_stability_score cv ≤ 100)
    ∧ (5 ≤ cv → cv < 10 → 80 ≤ calculate_stability_score cv ∧ calculate_stability_score cv ≤ 90)
    ∧ (10 ≤ cv → cv < 20 → 60 ≤ calculate_stability_score cv ∧ calculate_stability_score cv ≤ 80)
    ∧ (20 ≤ cv → cv < 30 → 40 ≤ calculate_stability_score cv ∧ calculate_stability_score cv ≤ 60)
    ∧ (30 ≤ cv → calculate_stability_score cv = ⌊max 0 (40 - (cv - 30))⌋) := by
  unfold calculate_stability_score
  by_cases h1 : cv < 5
  · rw [if_pos h1, min_eq_right (by linarith : (100 : ℚ) - cv ≤ 100),
      max_eq_right (by linarith : (0 : ℚ) ≤ 100 - cv), pyInt_of_nonneg (by linarith)]
    have hb := @floor_bounds 95 100 (100 - cv) (by push_cast; linarith) (by push_cast; linarith)
    exact ⟨⟨by omega, hb.2⟩, fun _ => hb, fun ha _ => absurd h1 (by linarith),
      fun ha _ => absurd h1 (by linarith), fun ha _ => absurd h1 (by linarith),
      fun ha => absurd h1 (by linarith)⟩
  · rw [if_neg h1]
    have h5 : 5 ≤ cv := not_lt.mp h1
    by_cases h2 : cv < 10
    · rw [if_pos h2, min_eq_right (by linarith : 90 - (cv - 5) * 2 ≤ (100 : ℚ)),
        max_eq_right (by linarith : (0 : ℚ) ≤ 90 - (cv - 5) * 2), pyInt_of_nonneg (by linarith)]
      have hb := @floor_bounds 80 90 (90 - (cv - 5) * 2)
        (by push_cast; linarith) (by push_cast; linarith)
      exact ⟨⟨by omega, by omega⟩, fun hc => absurd hc (by linarith), fun _ _ => hb,
        fun ha _ => absurd h2 (by linarith), fun ha _ => absurd h2 (by linarith),
        fun ha => absurd h2 (by linarith)⟩
    · rw [if_neg h2]
      have h10 : 10 ≤ cv := not_lt.mp h2
      by_cases h3 : cv < 20
      · rw [if_pos h3, min_eq_right (by linarith : 80 - (cv - 10) * 2 ≤ (100 : ℚ)),
          max_eq_right (by linarith : (0 : ℚ) ≤ 80 - (cv - 10) * 2), pyInt_of_nonneg (by linarith)]
        have hb := @floor_bounds 60 80 (80 - (cv - 10) * 2)
          (by push_cast; linarith) (by push_cast; linarith)
        exact ⟨⟨by omega, by omega⟩, fun hc => absurd hc (by linarith),
          fun _ hc => absurd hc (by linarith), fun _ _ => hb,
          fun ha _ => absurd h3 (by linarith), fun ha => absurd h3 (by linarith)⟩
      · rw [if_neg h3]
        have h20 : 20 ≤ cv := not_lt.mp h3
        by_cases h4 : cv < 30
        · rw [if_pos h4, min_eq_right (by linarith : 60 - (cv - 20) * 2 ≤ (100 : ℚ)),
            max_eq_right (by linarith : (0 : ℚ) ≤ 60 - (cv - 20) * 2),
            pyInt_of_nonneg (by linarith)]
          have hb := @floor_bounds 40 60 (60 - (cv - 20) * 2)
            (by push_cast; linarith) (by push_cast; linarith)
          exact ⟨⟨by omega, by omega⟩, fun hc => absurd hc (by linarith),
            fun _ hc => absurd hc (by linarith), fun _ hc => absurd hc (by linarith),
            fun _ _ => hb, fun ha => absurd h4 (by linarith)⟩
        · rw [if_neg h4]
          have h30 : 30 ≤ cv := not_lt.mp h4
          have hm0 : (0 : ℚ) ≤ max 0 (40 - (cv - 30)) := le_max_left 0 _
          have hm100 : max (0 : ℚ) (40 - (cv - 30)) ≤ 100 :=
            max_le (by norm_num) (by linarith)
          rw [min_eq_right hm100, max_eq_right hm0, pyInt_of_nonneg hm0]
          have hb := @floor_bounds 0 100 (max 0 (40 - (cv - 30)))
            (by push_cast; linarith) (by push_cast; linarith)
          exact ⟨hb, fun hc => absurd hc (by linarith), fun _ hc => absurd hc (by linarith),
            fun _ hc => absurd hc (by linarith), fun _ hc => absurd hc (by linarith),
            fun _ => rfl⟩

/-- Witness for the amended C8 at the concrete input `cv = 7`. -/
theorem calculate_stability_score_bands_witness :
    0 ≤ calculate_stability_score 7 ∧ calculate_stability_score 7 ≤ 100 :=
  (calculate_stability_score_bands 7 (by norm_num)).1

/-- C10: with fewer than two samples (empty list or singleton),
`calculate_confidence_interval` returns exactly `(0.0, 0.0)`; it does not
raise and does not build an interval around the lone sample. -/
theorem calculate_confidence_interval_degenerate (data : List ℚ) (confidence : ℚ)
    (h : data.length < 2) :
    calculate_confidence_interval data confidence = (0, 0) := by
  unfold calculate_confidence_interval
  rw [if_pos h]

/-- Witness for C10 at the empty sample list. -/
theorem calculate_confidence_interval_degenerate_witness :
    calculate_confidence_interval [] 0.95 = (0, 0) :=
  calculate_confidence_interval_degenerate [] 0.95 (by decide)

end StatisticalAnalyzer

namespace ProxyScoreCalculator

/-- `test_results['ping']`: `success` is falsy for a missing/empty dict, the
numeric fields are `None`/absent-tolerant. -/
structure PingResult where
  success : Bool
  avg_delay : Option ℚ
  loss_rate : Option ℚ
  jitter : Option ℚ
deriving DecidableEq

/-- `test_results['tcp']`. -/
structure TcpResult where
  success : Bool
  connect_time : Option ℚ
deriving DecidableEq

/-- `test_results['http']`. -/
structure HttpResult where
  success : Bool
  ttfb : Option ℚ
deriving DecidableEq

/-- `test_results['stability']`; `none` models a missing or empty (falsy)
dict, matching the `if stability_result:` truthiness checks. -/
structure StabilityResult where
  success_rate : ℚ
  stability_score : ℚ
deriving DecidableEq

/-- `test_results['download']`; `none` models a missing or empty dict. -/
structure DownloadResult where
  success : Bool
  speed_mBps : ℚ
deriving DecidableEq

/-- The `test_results` dictionary handed to `calculate_proxy_score`. -/
structure TestResults where
  ping : PingResult
  tcp : TcpResult
  http : HttpResult
  stability : Option StabilityResult
  download : Option DownloadResult
deriving DecidableEq

/-- Domain condition on the stability sub-dict: a success rate is a
percentage in `[0, 100]` and the stability-probe score is in `[0, 100]`
(as produced by the tester). -/
def stabilityInputOk : Option StabilityResult → Prop
  | none => True
  | some st => 0 ≤ st.success_rate ∧ st.success_rate ≤ 100 ∧
      0 ≤ st.stability_score ∧ st.stability_score ≤ 100

instance : DecidablePred stabilityInputOk := fun sr => by
  unfold stabilityInputOk
  cases sr <;> infer_instance

/-- The connection-stability contribution (third addend) of
`_calculate_availability_score`. -/
def stability_rate_points (sr : Option StabilityResult) : ℤ :=
  match sr with
  | none => 0
  | some st =>
    if 90 ≤ st.success_rate then 5
    else if 80 ≤ st.success_rate then 4
    else if 70 ≤ st.success_rate then 3
    else pyInt (st.success_rate / 20)

/-- `ProxyScoreCalculator._calculate_availability_score` (0-20 intended):
+10 for ping success, +5 for TCP success, and up to +5 from the
connection-stability success rate. -/
def availability_score (pr : PingResult) (tr : TcpResult) (sr : Option StabilityResult) : ℤ :=
  (if pr.success then 10 else 0) +
  (if tr.success then 5 else 0) +
  stability_rate_points sr

/-- The first latency table of `_calculate_speed_score` (up to 15,
down to 1 for delays ≥ 300 ms). -/
def delay_points_1 (x : Option ℚ) : ℤ :=
  match x with
  | none => 0
  | some d =>
    if d < 50 then 15 else if d < 100 then 12 else if d < 150 then 9
    else if d < 200 then 6 else if d < 300 then 3 else 1

/-- The second latency table of `_calculate_speed_score`, used when no
successful download measurement exists (coarser final bucket of 3). -/
def delay_points_2 (x : Option ℚ) : ℤ :=
  match x with
  | none => 0
  | some d =>
    if d < 50 then 15 else if d < 100 then 12 else if d < 150 then 9
    else if d < 200 then 6 else 3

/-- The throughput table of `_calculate_speed_score` for a successful
download. -/
def download_points (speed_mBps : ℚ) : ℤ :=
  if 5 ≤ speed_mBps then 15
  else if 2 ≤ speed_mBps then 10
  else if 1 ≤ speed_mBps then 6
  else if 1 / 2 ≤ speed_mBps then 3
  else 1

/-- `ProxyScoreCalculator._calculate_speed_score` (0-30 intended): latency
contributes up to 15; a successful download contributes up to 15 by
throughput, otherwise the latency table is applied a second time. -/
def speed_score (pr : PingResult) (dr : Option DownloadResult) : ℤ :=
  delay_points_1 pr.avg_delay +
  (match dr with
   | some w => if w.success then download_points w.speed_mBps else delay_points_2 pr.avg_delay
   | none => delay_points_2 pr.avg_delay)

/-- The loss-rate table of `_calculate_stability_score` (up to 10). -/
def loss_points (x : Option ℚ) : ℤ :=
  match x with
  | none => 0
  | some l =>
    if l = 0 then 10 else if l < 1 then 8 else if l < 3 then 6
    else if l < 5 then 4 else if l < 10 then 2 else 0

/-- The jitter table of `_calculate_stability_score` (up to 10). -/
def jitter_points (x : Option ℚ) : ℤ :=
  match x with
  | none => 0
  | some j =>
    if j < 5 then 10 else if j < 10 then 8 else if j < 20 then 6
    else if j < 30 then 4 else if j < 50 then 2 else 0

/-- The normalized stability-probe contribution of
`_calculate_stability_score`: `int(stability_score / 10)`. -/
def stability_probe_points (sr : Option StabilityResult) : ℤ :=
  match sr with
  | none => 0
  | some st => pyInt (st.stability_score / 10)

/-- `ProxyScoreCalculator._calculate_stability_score` (0-30 intended):
loss rate up to 10, jitter up to 10, normalized stability-probe score up
to 10. -/
def stability_score (pr : PingResult) (sr : Option StabilityResult) : ℤ :=
  loss_points pr.loss_rate + jitter_points pr.jitter + stability_probe_points sr

/-- The time-to-first-byte table of `_calculate_responsiveness_score`. -/
def ttfb_table (x : Option ℚ) : ℤ :=
  match x with
  | none => 0
  | some t =>
    if t < 100 then 10 else if t < 200 then 8 else if t < 300 then 6
    else if t < 500 then 4 else if t < 1000 then 2 else 0

/-- The TCP connect-time table of `_calculate_responsiveness_score`. -/
def connect_time_table (x : Option ℚ) : ℤ :=
  match x with
  | none => 0
  | some c =>
    if c < 50 then 10 else if c < 100 then 8 else if c < 200 then 6
    else if c < 300 then 4 else if c < 500 then 2 else 0

/-- `ProxyScoreCalculator._calculate_responsiveness_score` (0-20 intended):
HTTP time-to-first-byte up to 10 and TCP connect time up to 10, each
gated on the probe having succeeded. -/
def responsiveness_score (tr : TcpResult) (hr : HttpResult) : ℤ :=
  (if hr.success then ttfb_table hr.ttfb else 0) +
  (if tr.success then connect_time_table tr.connect_time else 0)

/-- `ProxyScoreCalculator._calculate_streaming_score` (legacy, 0-100). -/
def streaming_score (pr : PingResult) : ℤ :=
  max 0 (100 -
    (if 300 < pr.avg_delay.getD 1000 then 50 else if 200 < pr.avg_delay.getD 1000 then 30
     else if 100 < pr.avg_delay.getD 1000 then 10 else 0) -
    (if 5 < pr.loss_rate.getD 100 then 40 else if 3 < pr.loss_rate.getD 100 then 20
     else if 1 < pr.loss_rate.getD 100 then 10 else 0) -
    (if 100 < pr.jitter.getD 100 then 20 else if 50 < pr.jitter.getD 100 then 10 else 0))

/-- `ProxyScoreCalculator._calculate_gaming_score` (legacy, 0-100). -/
def gaming_score (pr : PingResult) : ℤ :=
  max 0 (100 -
    (if 2 < pr.loss_rate.getD 100 then 40 else if 1 < pr.loss_rate.getD 100 then 20
     else if 1 / 2 < pr.loss_rate.getD 100 then 10 else 0) -
    (if 150 < pr.avg_delay.getD 1000 then 30 else if 100 < pr.avg_delay.getD 1000 then 20
     else if 50 < pr.avg_delay.getD 1000 then 10 else 0) -
    (if 50 < pr.jitter.getD 100 then 20 else if 20 < pr.jitter.getD 100 then 10 else 0))

/-- `ProxyScoreCalculator._calculate_rtc_score` (legacy, 0-100). -/
def rtc_score (pr : PingResult) : ℤ :=
  max 0 (100 -
    (if 1 < pr.loss_rate.getD 100 then 30 else if 1 / 2 < pr.loss_rate.getD 100 then 20
     else if 1 / 10 < pr.loss_rate.getD 100 then 10 else 0) -
    (if 30 < pr.jitter.getD 100 then 30 else if 20 < pr.jitter.getD 100 then 20
     else if 10 < pr.jitter.getD 100 then 10 else 0) -
    (if 200 < pr.avg_delay.getD 1000 then 20 else if 150 < pr.avg_delay.getD 1000 then 15
     else if 100 < pr.avg_delay.getD 1000 then 10 else 0))

/-- The `scores` dictionary returned by `calculate_proxy_score`. -/
structure ScoreSet where
  overall : ℤ
  availability : ℤ
  speed : ℤ
  stability : ℤ
  responsiveness : ℤ
  streaming : ℤ
  gaming : ℤ
  rtc : ℤ
deriving DecidableEq

/-- `ProxyScoreCalculator.calculate_proxy_score`: the four proxy
sub-scores, their integer sum as `overall`, and the retained legacy
scores. -/
def calculate_proxy_score (t : TestResults) : ScoreSet :=
  let a := availability_score t.ping t.tcp t.stability
  let sp := speed_score t.ping t.download
  let st := stability_score t.ping t.stability
  let re := responsiveness_score t.tcp t.http
  ⟨a + sp + st + re, a, sp, st, re,
    streaming_score t.ping, gaming_score t.ping, rtc_score t.ping⟩

lemma stability_rate_points_bounds (sr : Option StabilityResult) (h : stabilityInputOk sr) :
    0 ≤ stability_rate_points sr ∧ stability_rate_points sr ≤ 5 := by
  rcases sr with - | st
  · simp [stability_rate_points]
  · have h' : 0 ≤ st.success_rate ∧ st.success_rate ≤ 100 ∧
        0 ≤ st.stability_score ∧ st.stability_score ≤ 100 := h
    obtain ⟨h0, h100, -, -⟩ := h'
    simp only [stability_rate_points]
    split_ifs with h1 h2 h3
    · omega
    · omega
    · omega
    · have hlt : st.success_rate < 70 := not_le.mp h3
      rw [pyInt_of_nonneg (by positivity)]
      exact @floor_bounds 0 5 (st.success_rate / 20) (by push_cast; positivity)
        (by push_cast; linarith)

lemma availability_score_bounds (pr : PingResult) (tr : TcpResult)
    (sr : Option StabilityResult) (h : stabilityInputOk sr) :
    0 ≤ availability_score pr tr sr ∧ availability_score pr tr sr ≤ 20 := by
  have h3 := stability_rate_points_bounds sr h
  unfold availability_score
  split_ifs <;> omega

lemma delay_points_1_bounds (x : Option ℚ) : 0 ≤ delay_points_1 x ∧ delay_points_1 x ≤ 15 := by
  rcases x with - | d
  · simp [delay_points_1]
  · simp only [delay_points_1]
    split_ifs <;> omega

lemma delay_points_2_bounds (x : Option ℚ) : 0 ≤ delay_points_2 x ∧ delay_points_2 x ≤ 15 := by
  rcases x with - | d
  · simp [delay_points_2]
  · simp only [delay_points_2]
    split_ifs <;> omega

lemma download_points_bounds (s : ℚ) : 0 ≤ download_points s ∧ download_points s ≤ 15 := by
  unfold download_points
  split_ifs <;> omega

lemma speed_score_bounds (pr : PingResult) (dr : Option DownloadResult) :
    0 ≤ speed_score pr dr ∧ speed_score pr dr ≤ 30 := by
  have h1 := delay_points_1_bounds pr.avg_delay
  have h2 := delay_points_2_bounds pr.avg_delay
  unfold speed_score
  rcases dr with - | w
  · dsimp only
    omega
  · have h3 := download_points_bounds w.speed_mBps
    dsimp only
    by_cases hw : w.success <;> simp only [hw, ite_true, ite_false] <;> omega

lemma loss_points_bounds (x : Option ℚ) : 0 ≤ loss_points x ∧ loss_points x ≤ 10 := by
  rcases x with - | l
  · simp [loss_points]
  · simp only [loss_points]
    split_ifs <;> omega

lemma jitter_points_bounds (x : Option ℚ) : 0 ≤ jitter_points x ∧ jitter_points x ≤ 10 := by
  rcases x with - | j
  · simp [jitter_points]
  · simp only [jitter_points]
    split_ifs <;> omega

lemma stability_probe_points_bounds (sr : Option StabilityResult) (h : stabilityInputOk sr) :
    0 ≤ stability_probe_points sr ∧ stability_probe_points sr ≤ 10 := by
  rcases sr with - | st
  · simp [stability_probe_points]
  · have h' : 0 ≤ st.success_rate ∧ st.success_rate ≤ 100 ∧
        0 ≤ st.stability_score ∧ st.stability_score ≤ 100 := h
    obtain ⟨-, -, hs0, hs100⟩ := h'
    simp only [stability_probe_points]
    rw [pyInt_of_nonneg (by positivity)]
    exact @floor_bounds 0 10 (st.stability_score / 10) (by push_cast; positivity)
      (by push_cast; linarith)

lemma stability_score_bounds (pr : PingResult) (sr : Option StabilityResult)
    (h : stabilityInputOk sr) :
    0 ≤ stability_score pr sr ∧ stability_score pr sr ≤ 30 := by
  have h1 := loss_points_bounds pr.loss_rate
  have h2 := jitter_points_bounds pr.jitter
  have h3 := stability_probe_points_bounds sr h
  unfold stability_score
  omega

lemma ttfb_table_bounds (x : Option ℚ) : 0 ≤ ttfb_table x ∧ ttfb_table x ≤ 10 := by
  rcases x with - | t
  · simp [ttfb_table]
  · simp only [ttfb_table]
    split_ifs <;> omega

lemma connect_time_table_bounds (x : Option ℚ) :
    0 ≤ connect_time_table x ∧ connect_time_table x ≤ 10 := by
  rcases x with - | c
  · simp [connect_time_table]
  · simp only [connect_time_table]
    split_ifs <;> omega

lemma responsiveness_score_bounds (tr : TcpResult) (hr : HttpResult) :
    0 ≤ responsiveness_score tr hr ∧ responsiveness_score tr hr ≤ 20 := by
  have h1 := ttfb_table_bounds hr.ttfb
  have h2 := connect_time_table_bounds tr.connect_time
  unfold responsiveness_score
  split_ifs <;> omega

lemma legacy_score_bounds (pr : PingResult) :
    (0 ≤ streaming_score pr ∧ streaming_score pr ≤ 100) ∧
    (0 ≤ gaming_score pr ∧ gaming_score pr ≤ 100) ∧
    (0 ≤ rtc_score pr ∧ rtc_score pr ≤ 100) := by
  unfold streaming_score gaming_score rtc_score
  refine ⟨⟨le_max_left 0 _, ?_⟩, ⟨le_max_left 0 _, ?_⟩, ⟨le_max_left 0 _, ?_⟩⟩ <;>
    (apply max_le (by norm_num)) <;> split_ifs <;> omega

/-- C2: under the domain condition that a present stability sub-dict
carries a success rate and stability score in `[0, 100]`, every proxy
sub-score is within its declared band (availability 0-20, speed 0-30,
stability 0-30, responsiveness 0-20), the legacy streaming/gaming/rtc
scores are in `[0, 100]`, `overall` is exactly the integer sum of the four
proxy sub-scores, and every returned score including `overall` is an
integer in `[0, 100]`. -/
theorem calculate_proxy_score_bounds (t : TestResults) (h : stabilityInputOk t.stability) :
    (0 ≤ (calculate_proxy_score t).availability ∧ (calculate_proxy_score t).availability ≤ 20)
    ∧ (0 ≤ (calculate_proxy_score t).speed ∧ (calculate_proxy_score t).speed ≤ 30)
    ∧ (0 ≤ (calculate_proxy_score t).stability ∧ (calculate_proxy_score t).stability ≤ 30)
    ∧ (0 ≤ (calculate_proxy_score t).responsiveness ∧
        (calculate_proxy_score t).responsiveness ≤ 20)
    ∧ (0 ≤ (calculate_proxy_score t).streaming ∧ (calculate_proxy_score t).streaming ≤ 100)
    ∧ (0 ≤ (calculate_proxy_score t).gaming ∧ (calculate_proxy_score t).gaming ≤ 100)
    ∧ (0 ≤ (calculate_proxy_score t).rtc ∧ (calculate_proxy_score t).rtc ≤ 100)
    ∧ (calculate_proxy_score t).overall =
        (calculate_proxy_score t).availability + (calculate_proxy_score t).speed +
        (calculate_proxy_score t).stability + (calculate_proxy_score t).responsiveness
    ∧ (0 ≤ (calculate_proxy_score t).overall ∧ (calculate_proxy_score t).overall ≤ 100) := by
  have ha := availability_score_bounds t.ping t.tcp t.stability h
  have hsp := speed_score_bounds t.ping t.download
  have hst := stability_score_bounds t.ping t.stability h
  have hre := responsiveness_score_bounds t.tcp t.http
  have hleg := legacy_score_bounds t.ping
  unfold calculate_proxy_score
  refine ⟨ha, hsp, hst, hre, hleg.1, hleg.2.1, hleg.2.2, rfl, ?_⟩
  constructor <;> dsimp only <;> omega

/-- Witness for C2 at a concrete fully-populated test result. -/
theorem calculate_proxy_score_bounds_witness :
    0 ≤ (calculate_proxy_score
        ⟨⟨true, some 45, some 0, some 3⟩, ⟨true, some 60⟩, ⟨true, some 120⟩,
          some ⟨100, 95⟩, some ⟨true, 17 / 2⟩⟩).overall ∧
    (calculate_proxy_score
        ⟨⟨true, some 45, some 0, some 3⟩, ⟨true, some 60⟩, ⟨true, some 120⟩,
          some ⟨100, 95⟩, some ⟨true, 17 / 2⟩⟩).overall ≤ 100 :=
  (calculate_proxy_score_bounds
    ⟨⟨true, some 45, some 0, some 3⟩, ⟨true, some 60⟩, ⟨true, some 120⟩,
      some ⟨100, 95⟩, some ⟨true, 17 / 2⟩⟩ (by decide)).2.2.2.2.2.2.2.2

end ProxyScoreCalculator

namespace Ranking

/-- The slice of one result dictionary that `sort_results_by_quality`
inspects: success flag, `ping.loss_rate`, `ping.avg_delay`, and the
download sub-dict (`success`, `speed_mbps`). `none` models both a missing
key and an explicit `None` value, which the source coalesces to the same
defaults. -/
structure QResult where
  success : Bool
  loss_rate : Option ℚ
  avg_delay : Option ℚ
  download_success : Bool
  speed_mbps : Option ℚ
deriving DecidableEq

/-- The loss-rate tier assigned by the grouping loop of
`sort_results_by_quality`: 0 = perfect (0%), 1 = good (<5%),
2 = acceptable (<10%), 3 = poor (≥10%); a missing loss rate counts
as 100. -/
def tier (r : QResult) : ℕ :=
  if r.loss_rate.getD 100 = 0 then 0
  else if r.loss_rate.getD 100 < 5 then 1
  else if r.loss_rate.getD 100 < 10 then 2
  else 3

/-- `get_delay_sort_key`: average delay with missing values as 1000. -/
def get_delay_sort_key (r : QResult) : ℚ := r.avg_delay.getD 1000

/-- The download speed used by `get_quality_sort_key`: 0 unless the
download probe succeeded. -/
def download_speed (r : QResult) : ℚ :=
  if r.download_success then r.speed_mbps.getD 0 else 0

/-- `get_quality_sort_key`: `(delay, -speed)`, compared
lexicographically. -/
def get_quality_sort_key (r : QResult) : ℚ × ℚ :=
  (get_delay_sort_key r, - download_speed r)

/-- Comparison by the delay key alone (the first per-tier sort). -/
def delayLe (a b : QResult) : Prop := get_delay_sort_key a ≤ get_delay_sort_key b

/-- Lexicographic comparison by `(delay, -speed)` (the second per-tier
sort). -/
def qualityLe (a b : QResult) : Prop :=
  get_delay_sort_key a < get_delay_sort_key b ∨
    (get_delay_sort_key a = get_delay_sort_key b ∧ - download_speed a ≤ - download_speed b)

instance : DecidableRel delayLe := fun a b => by
  unfold delayLe
  infer_instance

instance : DecidableRel qualityLe := fun a b => by
  unfold qualityLe
  infer_instance

instance : IsTotal QResult delayLe :=
  ⟨fun a b => by
    unfold delayLe
    exact le_total _ _⟩

instance : IsTrans QResult delayLe :=
  ⟨fun a b c hab hbc => by
    unfold delayLe at hab hbc ⊢
    exact le_trans hab hbc⟩

instance : IsTotal QResult qualityLe :=
  ⟨fun a b => by
    unfold qualityLe
    rcases lt_trichotomy (get_delay_sort_key a) (get_delay_sort_key b) with h | h | h
    · exact Or.inl (Or.inl h)
    · rcases le_total (- download_speed a) (- download_speed b) with hs | hs
      · exact Or.inl (Or.inr ⟨h, hs⟩)
      · exact Or.inr (Or.inr ⟨h.symm, hs⟩)
    · exact Or.inr (Or.inl h)⟩

instance : IsTrans QResult qualityLe :=
  ⟨fun a b c hab hbc => by
    unfold qualityLe at hab hbc ⊢
    rcases hab with h1 | ⟨e1, s1⟩ <;> rcases hbc with h2 | ⟨e2, s2⟩
    · exact Or.inl (h1.trans h2)
    · exact Or.inl (lt_of_lt_of_le h1 e2.le)
    · exact Or.inl (lt_of_le_of_lt e1.le h2)
    · exact Or.inr ⟨e1.trans e2, s1.trans s2⟩⟩

/-- The grouping loop of `sort_results_by_quality`: one pass over the
successful results appending each to its loss-rate tier. -/
def partitionTiers : List QResult → List QResult × List QResult × List QResult × List QResult
  | [] => ([], [], [], [])
  | r :: rest =>
    let t := partitionTiers rest
    if tier r = 0 then (r :: t.1, t.2.1, t.2.2.1, t.2.2.2)
    else if tier r = 1 then (t.1, r :: t.2.1, t.2.2.1, t.2.2.2)
    else if tier r = 2 then (t.1, t.2.1, r :: t.2.2.1, t.2.2.2)
    else (t.1, t.2.1, t.2.2.1, r :: t.2.2.2)

lemma tier_cases (r : QResult) : tier r = 0 ∨ tier r = 1 ∨ tier r = 2 ∨ tier r = 3 := by
  unfold tier
  split_ifs <;> simp

lemma partitionTiers_eq (l : List QResult) :
    partitionTiers l =
      (l.filter (fun r => tier r == 0), l.filter (fun r => tier r == 1),
        l.filter (fun r => tier r == 2), l.filter (fun r => tier r == 3)) := by
  induction l with
  | nil => rfl
  | cons r rest ih =>
    simp only [partitionTiers, ih, List.filter_cons]
    rcases tier_cases r with h | h | h | h <;> simp [h]

/-- One tier group after both in-place sorts: a stable delay sort followed
by the `(delay, -speed)` sort, as the source performs. -/
def sortGroup (l : List QResult) : List QResult :=
  List.insertionSort qualityLe (List.insertionSort delayLe l)

/-- `AdvancedIPTester.sort_results_by_quality`: split into successful and
failed results, partition the successes into the four loss-rate tiers,
sort each tier (first by delay, then by `(delay, -speed)`), and emit
`perfect ++ good ++ acceptable ++ poor ++ failed`. -/
def sort_results_by_quality (results : List QResult) : List QResult :=
  let success_results := results.filter (fun r => r.success)
  let failed_results := results.filter (fun r => !r.success)
  let t := partitionTiers success_results
  sortGroup t.1 ++ sortGroup t.2.1 ++ sortGroup t.2.2.1 ++ sortGroup t.2.2.2 ++ failed_results

/-- The successful results of tier `t`, in input order. -/
def tierFilter (results : List QResult) (t : ℕ) : List QResult :=
  (results.filter (fun r => r.success)).filter (fun r => tier r == t)

lemma sort_results_eq (results : List QResult) :
    sort_results_by_quality results =
      sortGroup (tierFilter results 0) ++ sortGroup (tierFilter results 1) ++
        sortGroup (tierFilter results 2) ++ sortGroup (tierFilter results 3) ++
        results.filter (fun r => !r.success) := by
  unfold sort_results_by_quality tierFilter
  dsimp only
  rw [partitionTiers_eq]

lemma sortGroup_perm (l : List QResult) : (sortGroup l).Perm l :=
  (List.perm_insertionSort qualityLe _).trans (List.perm_insertionSort delayLe l)

lemma sortGroup_sorted (l : List QResult) : List.Sorted qualityLe (sortGroup l) :=
  List.sorted_insertionSort qualityLe _

lemma mem_sortGroup {x : QResult} {l : List QResult} : x ∈ sortGroup l ↔ x ∈ l :=
  (sortGroup_perm l).mem_iff

lemma mem_tierFilter {x : QResult} {results : List QResult} {t : ℕ}
    (h : x ∈ tierFilter results t) : x.success = true ∧ tier x = t := by
  unfold tierFilter at h
  simp only [List.mem_filter, beq_iff_eq] at h
  exact ⟨h.1.2, h.2⟩

/-- The tier-monotonicity relation of the claim: among successful entries,
tiers never decrease along the output order. -/
def tierMono (a b : QResult) : Prop := a.success = true → b.success = true → tier a ≤ tier b

/-- C1: `sort_results_by_quality` equals the concatenation of the four
loss-rate tiers (each a sorted permutation of the successful entries of
that tier, ordered by `(avg_delay, -download_speed)`) followed by the
failed entries in their original order; consequently tiers are
monotone along the successful entries of the output. The final conjunct is
the spec's concrete scenario: a target with average delay 11 and 0% loss
(`fastPerfect`, from samples [10,12,11]) is ranked before one with average
delay 510 and 20% loss (`slowPoor`, from samples [500,520,510]). -/
theorem sort_results_by_quality_spec (results : List QResult) :
    sort_results_by_quality results =
        sortGroup (tierFilter results 0) ++ sortGroup (tierFilter results 1) ++
          sortGroup (tierFilter results 2) ++ sortGroup (tierFilter results 3) ++
          results.filter (fun r => !r.success)
    ∧ (∀ t, (sortGroup (tierFilter results t)).Perm (tierFilter results t)
        ∧ List.Sorted qualityLe (sortGroup (tierFilter results t)))
    ∧ List.Pairwise tierMono (sort_results_by_quality results)
    ∧ sort_results_by_quality [⟨true, some 20, some 510, false, none⟩,
        ⟨true, some 0, some 11, false, none⟩] =
      [⟨true, some 0, some 11, false, none⟩, ⟨true, some 20, some 510, false, none⟩] := by
  refine ⟨sort_results_eq results, fun t => ⟨sortGroup_perm _, sortGroup_sorted _⟩, ?_, by decide⟩
  have key : ∀ (t : ℕ) (x : QResult), x ∈ sortGroup (tierFilter results t) →
      x.success = true ∧ tier x = t :=
    fun t x hx => mem_tierFilter (mem_sortGroup.mp hx)
  have fkey : ∀ x ∈ results.filter (fun r => !r.success), x.success = false := by
    intro x hx
    simp only [List.mem_filter, Bool.not_eq_true'] at hx
    exact hx.2
  have pw_group : ∀ t : ℕ, List.Pairwise tierMono (sortGroup (tierFilter results t)) := by
    intro t
    apply List.pairwise_of_forall_mem_list
    intro a ha b hb _ _
    rw [(key t a ha).2, (key t b hb).2]
  have pw_failed : List.Pairwise tierMono (results.filter (fun r => !r.success)) := by
    apply List.pairwise_of_forall_mem_list
    intro a ha b hb _ hbs
    rw [fkey b hb] at hbs
    cases hbs
  have cross : ∀ t1 t2 : ℕ, t1 ≤ t2 → ∀ a ∈ sortGroup (tierFilter results t1),
      ∀ b ∈ sortGroup (tierFilter results t2), tierMono a b := by
    intro t1 t2 hle a ha b hb _ _
    rw [(key t1 a ha).2, (key t2 b hb).2]
    exact hle
  have crossf : ∀ t1 : ℕ, ∀ a ∈ sortGroup (tierFilter results t1),
      ∀ b ∈ results.filter (fun r => !r.success), tierMono a b := by
    intro t1 a ha b hb _ hbs
    rw [fkey b hb] at hbs
    cases hbs
  rw [sort_results_eq results]
  rw [List.append_assoc, List.append_assoc, List.append_assoc]
  refine List.pairwise_append.mpr ⟨pw_group 0, ?_, ?_⟩
  · refine List.pairwise_append.mpr ⟨pw_group 1, ?_, ?_⟩
    · refine List.pairwise_append.mpr ⟨pw_group 2, ?_, ?_⟩
      · refine List.pairwise_append.mpr ⟨pw_group 3, pw_failed, ?_⟩
        exact fun a ha b hb => crossf 3 a ha b hb
      · intro a ha b hb
        rcases List.mem_append.mp hb with hb | hb
        · exact cross 2 3 (by omega) a ha b hb
        · exact crossf 2 a ha b hb
    · intro a ha b hb
      rcases List.mem_append.mp hb with hb | hb
      · exact cross 1 2 (by omega) a ha b hb
      rcases List.mem_append.mp hb with hb | hb
      · exact cross 1 3 (by omega) a ha b hb
      · exact crossf 1 a ha b hb
  · intro a ha b hb
    rcases List.mem_append.mp hb with hb | hb
    · exact cross 0 1 (by omega) a ha b hb
    rcases List.mem_append.mp hb with hb | hb
    · exact cross 0 2 (by omega) a ha b hb
    rcases List.mem_append.mp hb with hb | hb
    · exact cross 0 3 (by omega) a ha b hb
    · exact crossf 0 a ha b hb

/-- Witness for C1: the concrete two-target scenario extracted from the
theorem. -/
theorem sort_results_by_quality_spec_witness :
    sort_results_by_quality [⟨true, some 20, some 510, false, none⟩,
        ⟨true, some 0, some 11, false, none⟩] =
      [⟨true, some 0, some 11, false, none⟩, ⟨true, some 20, some 510, false, none⟩] :=
  (sort_results_by_quality_spec []).2.2.2

end Ranking

/-- First-seen-wins deduplication with an explicit `seen` accumulator,
mirroring the `seen = set(); for target in targets: ...` loop shape used
by `load_targets` (and the keyed maps of the history diff). -/
def dedupAux {α : Type} [DecidableEq α] : List α → List α → List α
  | _, [] => []
  | seen, x :: rest => if x ∈ seen then dedupAux seen rest else x :: dedupAux (x :: seen) rest

lemma mem_dedupAux {α : Type} [DecidableEq α] (a : α) :
    ∀ (l seen : List α), a ∈ dedupAux seen l ↔ a ∈ l ∧ a ∉ seen := by
  intro l
  induction l with
  | nil => simp [dedupAux]
  | cons x rest ih =>
    intro seen
    by_cases hx : x ∈ seen
    · simp only [dedupAux, if_pos hx, ih seen]
      constructor
      · rintro ⟨h1, h2⟩
        exact ⟨List.mem_cons_of_mem _ h1, h2⟩
      · rintro ⟨h1, h2⟩
        rcases List.mem_cons.mp h1 with rfl | h1
        · exact absurd hx h2
        · exact ⟨h1, h2⟩
    · simp only [dedupAux, if_neg hx]
      constructor
      · intro h
        rcases List.mem_cons.mp h with rfl | h
        · exact ⟨List.mem_cons_self _ _, hx⟩
        · obtain ⟨h1, h2⟩ := (ih (x :: seen)).mp h
          exact ⟨List.mem_cons_of_mem _ h1,
            fun hc => h2 (List.mem_cons_of_mem _ hc)⟩
      · rintro ⟨h1, h2⟩
        rcases List.mem_cons.mp h1 with rfl | h1
        · exact List.mem_cons_self _ _
        · by_cases hax : a = x
          · subst hax
            exact List.mem_cons_self _ _
          · exact List.mem_cons_of_mem _
              ((ih (x :: seen)).mpr ⟨h1, by simp [hax, h2]⟩)

lemma dedupAux_sublist {α : Type} [DecidableEq α] :
    ∀ (l seen : List α), (dedupAux seen l).Sublist l := by
  intro l
  induction l with
  | nil => simp [dedupAux]
  | cons x rest ih =>
    intro seen
    by_cases hx : x ∈ seen
    · simp only [dedupAux, if_pos hx]
      exact (ih seen).trans (List.sublist_cons_self x rest)
    · simp only [dedupAux, if_neg hx]
      exact (ih (x :: seen)).cons₂ x

lemma dedupAux_nodup {α : Type} [DecidableEq α] :
    ∀ (l seen : List α), (dedupAux seen l).Nodup := by
  intro l
  induction l with
  | nil => simp [dedupAux]
  | cons x rest ih =>
    intro seen
    by_cases hx : x ∈ seen
    · simp only [dedupAux, if_pos hx]
      exact ih seen
    · simp only [dedupAux, if_neg hx]
      refine List.nodup_cons.mpr ⟨?_, ih (x :: seen)⟩
      intro hc
      exact ((mem_dedupAux x rest (x :: seen)).mp hc).2 (List.mem_cons_self x seen)

namespace Targets

/-- The characters before the first `#`, i.e. `line.split('#', 1)[0]`. -/
def beforeHash : List Char → List Char
  | [] => []
  | c :: rest => if c = '#' then [] else c :: beforeHash rest

/-- Python `str.strip()`: drop whitespace from both ends. -/
def stripChars (l : List Char) : List Char :=
  ((l.dropWhile Char.isWhitespace).reverse.dropWhile Char.isWhitespace).reverse

/-- The identity key of a raw target line as `_make_history_key` derives
it from the original string: everything before the first `#`, with
surrounding whitespace stripped (`original.split('#', 1)[0].strip()`). -/
def identity_key (line : String) : String := String.mk (stripChars (beforeHash line.data))

/-- The deduplication step of `load_targets` (step 4): first occurrence of
each exact target string wins, later repeats are dropped. -/
def load_targets_dedupe (targets : List String) : List String := dedupAux [] targets

/-- C5 counterexample: two raw lines with the same identity key
(`host` with different trailing comments) are both kept by
`load_targets`, because the dedup loop compares exact strings, not
identity keys. -/
theorem load_targets_dedupe_not_identity_key :
    identity_key ("1.2.3.4 #a") = identity_key ("1.2.3.4 #b")
    ∧ ("1.2.3.4 #a" : String) ≠ "1.2.3.4 #b"
    ∧ load_targets_dedupe ["1.2.3.4 #a", "1.2.3.4 #b"] = ["1.2.3.4 #a", "1.2.3.4 #b"] :=
  ⟨by decide, by decide, by decide⟩

/-- C5 amended: `load_targets` returns the targets in first-seen order
with duplicates by exact target string (not by identity key) dropped: the
result is duplicate-free, is a subsequence of the input (so first-seen
order is preserved), and contains exactly the strings of the input; the
reported number of dropped duplicates is the difference of the two
lengths. -/
theorem load_targets_dedupe_spec (targets : List String) :
    (load_targets_dedupe targets).Nodup
    ∧ (load_targets_dedupe targets).Sublist targets
    ∧ (∀ s, s ∈ load_targets_dedupe targets ↔ s ∈ targets) := by
  refine ⟨dedupAux_nodup targets [], dedupAux_sublist targets [], fun s => ?_⟩
  unfold load_targets_dedupe
  rw [mem_dedupAux s targets []]
  simp

end Targets

namespace History

/-- A JSON value, as `json.load` would produce it for the history
snapshot file. -/
inductive JVal where
  | jnull : JVal
  | jbool : Bool → JVal
  | jnum : ℚ → JVal
  | jstr : String → JVal
  | jarr : List JVal → JVal
  | jobj : List (String × JVal) → JVal

/-- Python `dict.get` on a JSON object. -/
def jlookup : List (String × JVal) → String → Option JVal
  | [], _ => none
  | (k, v) :: rest, key => if k = key then some v else jlookup rest key

/-- Python `==` between a JSON value and an integer (`True == 1` and
numeric equality across int/float hold in Python). -/
def jEqInt (v : JVal) (n : ℤ) : Bool :=
  match v with
  | JVal.jnum q => decide (q = (n : ℚ))
  | JVal.jbool b => decide ((if b then (1 : ℤ) else 0) = n)
  | _ => false

/-- `AdvancedIPTester.HISTORY_VERSION`. -/
def HISTORY_VERSION : ℤ := 1

/-- `AdvancedIPTester.load_history`, modelled after file I/O: the input is
`none` when the snapshot file is missing or unreadable/unparsable, and
`some v` with the parsed JSON value otherwise. A non-dict payload, a
`version` not equal (in the Python sense) to 0 or `HISTORY_VERSION`, or a
non-list `results` field each yield `None`; otherwise the data is returned
unchanged. The function is total: no input raises or aborts the run. -/
def load_history (x : Option JVal) : Option JVal :=
  match x with
  | none => none
  | some data =>
    match data with
    | JVal.jobj fields =>
      if jEqInt ((jlookup fields ("version")).getD (JVal.jnum 0)) 0 ||
          jEqInt ((jlookup fields ("version")).getD (JVal.jnum 0)) HISTORY_VERSION then
        match (jlookup fields ("results")).getD (JVal.jarr []) with
        | JVal.jarr _ => some data
        | _ => none
      else none
    | _ => none

/-- C9: `load_history` never aborts the run (it is a total function into
`Option`); a missing snapshot file yields `none` (no prior history), a
non-dict snapshot yields `none`, a version other than 0 or
`HISTORY_VERSION` = 1 yields `none`, a non-list `results` field yields
`none`, and whenever it succeeds it returns the parsed snapshot
unchanged — so malformed history only skips the diff. -/
theorem load_history_safe :
    load_history none = none
    ∧ (∀ v, (∀ fields, v ≠ JVal.jobj fields) → load_history (some v) = none)
    ∧ (∀ fields,
        (jEqInt ((jlookup fields ("version")).getD (JVal.jnum 0)) 0 ||
          jEqInt ((jlookup fields ("version")).getD (JVal.jnum 0)) HISTORY_VERSION) = false →
        load_history (some (JVal.jobj fields)) = none)
    ∧ (∀ fields, (∀ l, (jlookup fields ("results")).getD (JVal.jarr []) ≠ JVal.jarr l) →
        load_history (some (JVal.jobj fields)) = none)
    ∧ (∀ x v, load_history x = some v → x = some v) := by
  refine ⟨rfl, ?_, ?_, ?_, ?_⟩
  · intro v hv
    cases v with
    | jobj fields => exact absurd rfl (hv fields)
    | jnull => rfl
    | jbool b => rfl
    | jnum q => rfl
    | jstr s => rfl
    | jarr l => rfl
  · intro fields hv
    unfold load_history
    dsimp only
    rw [if_neg (by simp [hv])]
  · intro fields hres
    unfold load_history
    dsimp only
    by_cases hv : (jEqInt ((jlookup fields ("version")).getD (JVal.jnum 0)) 0 ||
        jEqInt ((jlookup fields ("version")).getD (JVal.jnum 0)) HISTORY_VERSION) = true
    · rw [if_pos hv]
      rcases hr : (jlookup fields ("results")).getD (JVal.jarr []) with - | b | q | s | l | o
      · rfl
      · rfl
      · rfl
      · rfl
      · exact absurd hr (hres l)
      · rfl
    · rw [if_neg hv]
  · intro x v h
    cases x with
    | none => exact absurd h (by simp [load_history])
    | some data =>
      cases data with
      | jobj fields =>
        unfold load_history at h
        dsimp only at h
        by_cases hv : (jEqInt ((jlookup fields ("version")).getD (JVal.jnum 0)) 0 ||
            jEqInt ((jlookup fields ("version")).getD (JVal.jnum 0)) HISTORY_VERSION) = true
        · rw [if_pos hv] at h
          rcases hr : (jlookup fields ("results")).getD (JVal.jarr []) with - | b | q | s | l | o <;>
            rw [hr] at h <;> dsimp only at h
          · cases h
          · cases h
          · cases h
          · cases h
          · exact h
          · cases h
        · rw [if_neg hv] at h
          cases h
      | jnull => cases h
      | jbool b => cases h
      | jnum q => cases h
      | jstr s => cases h
      | jarr l => cases h

/-- Witness for C9: the missing-file and wrong-version cases at concrete
inputs. -/
theorem load_history_safe_witness :
    load_history none = none
    ∧ load_history (some (JVal.jobj [(("version"), JVal.jnum 2)])) = none :=
  ⟨load_history_safe.1,
    load_history_safe.2.2.1 [(("version"), JVal.jnum 2)] (by decide)⟩

end History

namespace HistoryDiff

/-- The per-key record stored in `current_map` / `history_map`:
the (1-based) rank and the overall score (`None` when absent). The
`delay` and `original` fields of the source records are carried along in
the real maps but play no role in any diff decision, so they are omitted
here. -/
structure Info where
  rank : ℤ
  score : Option ℚ
deriving DecidableEq

/-- One successful current result as `compare_with_history` consumes it:
its history key (possibly `""` when no key can be derived) and its overall
score. Its rank is its 1-based position in the score-sorted list. -/
structure CurrentEntry where
  key : String
  score : Option ℚ
deriving DecidableEq

/-- One record of the persisted history snapshot: key, stored rank
(`none` when missing or unparsable, in which case the record is skipped),
and stored score. -/
structure HistoryItem where
  key : String
  rank : Option ℤ
  score : Option ℚ
deriving DecidableEq

/-- Lookup in `current_map`: ranks are assigned by 1-based enumeration
and, for a duplicated key, the first (better-ranked) occurrence wins. -/
def curLookupFrom : ℤ → List CurrentEntry → String → Option Info
  | _, [], _ => none
  | r, e :: rest, k => if e.key = k then some ⟨r, e.score⟩ else curLookupFrom (r + 1) rest k

/-- `current_map[k]`; entries with an empty key are skipped. -/
def curLookup (cur : List CurrentEntry) (k : String) : Option Info :=
  if k = "" then none else curLookupFrom 1 cur k

/-- A history record enters `history_map` only with a nonempty key and a
parsable rank. -/
def histItemValid (e : HistoryItem) : Bool := e.key != "" && e.rank.isSome

/-- `history_map[k]`: the dict assignment loop lets the last valid record
with key `k` win. -/
def histLookup : List HistoryItem → String → Option Info
  | [], _ => none
  | e :: rest, k =>
    match histLookup rest k with
    | some i => some i
    | none =>
      if e.key = k ∧ e.key ≠ "" then
        match e.rank with
        | some r => some ⟨r, e.score⟩
        | none => none
      else none

/-- The keys of `current_map`, in insertion (first-seen) order. -/
def curKeys (cur : List CurrentEntry) : List String :=
  dedupAux [] ((cur.map (fun e => e.key)).filter (fun k => k != ""))

/-- The keys of `history_map`, in insertion (first-valid-seen) order. -/
def histKeys (hist : List HistoryItem) : List String :=
  dedupAux [] ((hist.filter histItemValid).map (fun e => e.key))

/-- `common_ips = current_keys & history_keys` (iterated in current-map
key order; the source iterates a hash set, whose order carries no
meaning). -/
def commonKeys (cur : List CurrentEntry) (hist : List HistoryItem) : List String :=
  (curKeys cur).filter (fun k => (histLookup hist k).isSome)

/-- `new_ips = current_keys - history_keys`. -/
def newKeys (cur : List CurrentEntry) (hist : List HistoryItem) : List String :=
  (curKeys cur).filter (fun k => !(histLookup hist k).isSome)

/-- `removed_ips = history_keys - current_keys`. -/
def removedKeys (cur : List CurrentEntry) (hist : List HistoryItem) : List String :=
  (histKeys hist).filter (fun k => !(curLookup cur k).isSome)

/-- One record appended to `rank_changes`. -/
structure RankChange where
  target : String
  old_rank : ℤ
  new_rank : ℤ
  rank_diff : ℤ
  score : Option ℚ
deriving DecidableEq

/-- One record appended to `score_changes`. -/
structure ScoreChange where
  target : String
  old_score : ℚ
  new_score : ℚ
  score_diff : ℚ
deriving DecidableEq

/-- The body of the `for key in common_ips` loop for rank changes: a
record is appended exactly when `rank_diff = history.rank - current.rank`
is nonzero. -/
def rankChangeAt (cur : List CurrentEntry) (hist : List HistoryItem) (k : String) :
    Option RankChange :=
  match curLookup cur k, histLookup hist k with
  | some c, some h =>
    if h.rank - c.rank ≠ 0 then some ⟨k, h.rank, c.rank, h.rank - c.rank, c.score⟩ else none
  | _, _ => none

/-- All recorded rank changes (before the top-10 display truncation). -/
def rankChangesAll (cur : List CurrentEntry) (hist : List HistoryItem) : List RankChange :=
  (commonKeys cur hist).filterMap (rankChangeAt cur hist)

/-- The body of the loop for score changes: a record is appended exactly
when both scores exist and `|score_diff| ≥ 5`. -/
def scoreChangeAt (cur : List CurrentEntry) (hist : List HistoryItem) (k : String) :
    Option ScoreChange :=
  match curLookup cur k, histLookup hist k with
  | some c, some h =>
    match c.score, h.score with
    | some sc, some sh => if 5 ≤ |sc - sh| then some ⟨k, sh, sc, sc - sh⟩ else none
    | _, _ => none
  | _, _ => none

/-- All recorded score changes (before the top-10 display truncation). -/
def scoreChangesAll (cur : List CurrentEntry) (hist : List HistoryItem) : List ScoreChange :=
  (commonKeys cur hist).filterMap (scoreChangeAt cur hist)

/-- The raw `score_diff` of a common key when both scores exist. -/
def scoreDiffAt (cur : List CurrentEntry) (hist : List HistoryItem) (k : String) : Option ℚ :=
  match curLookup cur k, histLookup hist k with
  | some c, some h =>
    match c.score, h.score with
    | some sc, some sh => some (sc - sh)
    | _, _ => none
  | _, _ => none

/-- The `score_diffs` list feeding the trend. -/
def scoreDiffs (cur : List CurrentEntry) (hist : List HistoryItem) : List ℚ :=
  (commonKeys cur hist).filterMap (scoreDiffAt cur hist)

/-- `avg_score_change = sum(score_diffs)/len(score_diffs) if score_diffs
else 0`. -/
def avg_score_change (cur : List CurrentEntry) (hist : List HistoryItem) : ℚ :=
  if scoreDiffs cur hist = [] then 0
  else (scoreDiffs cur hist).sum / (scoreDiffs cur hist).length

/-- Descending order on `|rank_diff|` (the display sort of
`rank_changes`). -/
def rankDescLe (a b : RankChange) : Prop := |b.rank_diff| ≤ |a.rank_diff|

instance : DecidableRel rankDescLe := fun a b => by
  unfold rankDescLe
  infer_instance

instance : IsTotal RankChange rankDescLe :=
  ⟨fun a b => by
    unfold rankDescLe
    exact (le_total _ _).symm⟩

instance : IsTrans RankChange rankDescLe :=
  ⟨fun a b c hab hbc => by
    unfold rankDescLe at hab hbc ⊢
    exact le_trans hbc hab⟩

/-- Descending order on `|score_diff|` (the display sort of
`score_changes`). -/
def scoreDescLe (a b : ScoreChange) : Prop := |b.score_diff| ≤ |a.score_diff|

instance : DecidableRel scoreDescLe := fun a b => by
  unfold scoreDescLe
  infer_instance

instance : IsTotal ScoreChange scoreDescLe :=
  ⟨fun a b => by
    unfold scoreDescLe
    exact (le_total _ _).symm⟩

instance : IsTrans ScoreChange scoreDescLe :=
  ⟨fun a b c hab hbc => by
    unfold scoreDescLe at hab hbc ⊢
    exact le_trans hbc hab⟩

/-- Ascending rank order on keyed map entries (the display sort of
`new_ips` / `removed_ips`). -/
def rankLe (a b : String × Info) : Prop := a.2.rank ≤ b.2.rank

instance : DecidableRel rankLe := fun a b => by
  unfold rankLe
  infer_instance

instance : IsTotal (String × Info) rankLe :=
  ⟨fun a b => by
    unfold rankLe
    exact le_total _ _⟩

instance : IsTrans (String × Info) rankLe :=
  ⟨fun a b c hab hbc => by
    unfold rankLe at hab hbc ⊢
    exact le_trans hab hbc⟩

/-- The `new_ips` output: the new keys with their current-map records,
sorted by rank. -/
def newIps (cur : List CurrentEntry) (hist : List HistoryItem) : List (String × Info) :=
  List.insertionSort rankLe
    ((newKeys cur hist).filterMap (fun k => (curLookup cur k).map (fun i => (k, i))))

/-- The `removed_ips` output: the removed keys with their history-map
records, sorted by rank. -/
def removedIps (cur : List CurrentEntry) (hist : List HistoryItem) : List (String × Info) :=
  List.insertionSort rankLe
    ((removedKeys cur hist).filterMap (fun k => (histLookup hist k).map (fun i => (k, i))))

/-- The dictionary returned by `compare_with_history`. -/
structure CompareResult where
  new_ips : List (String × Info)
  removed_ips : List (String × Info)
  rank_changes : List RankChange
  score_changes : List ScoreChange
  avg_score_change : ℚ
  total_current : ℕ
  total_history : ℕ
deriving DecidableEq

/-- `AdvancedIPTester.compare_with_history`: build both keyed maps,
classify keys as new/removed/common, record rank changes (nonzero
`rank_diff`) and score changes (`|score_diff| ≥ 5`), sort the change lists
by magnitude and keep the top 10 for display, and attach the average
score change as the trend. -/
def compare_with_history (cur : List CurrentEntry) (hist : List HistoryItem) : CompareResult :=
  ⟨newIps cur hist,
    removedIps cur hist,
    (List.insertionSort rankDescLe (rankChangesAll cur hist)).take 10,
    (List.insertionSort scoreDescLe (scoreChangesAll cur hist)).take 10,
    avg_score_change cur hist,
    cur.length,
    hist.length⟩

/-- The three-way update recommendation of `save_results_md`. -/
inductive Recommendation where
  | update : Recommendation
  | consider : Recommendation
  | stable : Recommendation
deriving DecidableEq

/-- The decision block of `save_results_md`: recommend an update when ≥3
new, ≥3 removed, or ≥3 displayed rank changes with `|rank_diff| ≥ 3`;
otherwise suggest considering one when any key was added or removed; else
report the configuration stable. -/
def recommendation (c : CompareResult) : Recommendation :=
  if 3 ≤ c.new_ips.length ∨ 3 ≤ c.removed_ips.length ∨
      3 ≤ (c.rank_changes.filter (fun x => decide (3 ≤ |x.rank_diff|))).length then
    Recommendation.update
  else if 0 < c.new_ips.length ∨ 0 < c.removed_ips.length then
    Recommendation.consider
  else Recommendation.stable

/-- The common keys whose rank moved by at least 3 (the quantity the
claim's update condition counts). -/
def significantKeys (cur : List CurrentEntry) (hist : List HistoryItem) : List String :=
  (commonKeys cur hist).filter (fun k =>
    match curLookup cur k, histLookup hist k with
    | some c, some h => decide (3 ≤ |h.rank - c.rank|)
    | _, _ => false)

/-- A snapshot entry list reinterpreted as the history side: ranks are the
1-based positions, exactly as `save_history` persists them. -/
def asHistoryFrom : ℤ → List CurrentEntry → List HistoryItem
  | _, [] => []
  | r, e :: rest => ⟨e.key, some r, e.score⟩ :: asHistoryFrom (r + 1) rest

/-- A current-run snapshot in history form. -/
def asHistory (l : List CurrentEntry) : List HistoryItem := asHistoryFrom 1 l

lemma curLookupFrom_eq_none (k : String) :
    ∀ (cur : List CurrentEntry) (r : ℤ),
      curLookupFrom r cur k = none ↔ k ∉ cur.map (fun e => e.key) := by
  intro cur
  induction cur with
  | nil => simp [curLookupFrom]
  | cons e rest ih =>
    intro r
    by_cases he : e.key = k
    · simp only [curLookupFrom, if_pos he, List.map_cons, List.mem_cons]
      simp [he]
    · simp only [curLookupFrom, if_neg he, List.map_cons, List.mem_cons, ih (r + 1)]
      constructor
      · intro h hc
        rcases hc with hc | hc
        · exact he hc.symm
        · exact h hc
      · intro h hc
        exact h (Or.inr hc)

lemma curLookup_isSome (cur : List CurrentEntry) (k : String) :
    (curLookup cur k).isSome = true ↔ k ≠ "" ∧ k ∈ cur.map (fun e => e.key) := by
  unfold curLookup
  by_cases hk : k = ""
  · simp [hk]
  · rw [if_neg hk]
    rw [Option.isSome_iff_ne_none, not_iff_comm, not_and_or]
    constructor
    · intro h
      rcases h with h | h
      · exact absurd hk (by simpa using h)
      · exact (curLookupFrom_eq_none k cur 1).mpr h
    · intro h
      exact Or.inr ((curLookupFrom_eq_none k cur 1).mp h)

lemma mem_curKeys (cur : List CurrentEntry) (k : String) :
    k ∈ curKeys cur ↔ (curLookup cur k).isSome = true := by
  unfold curKeys
  rw [mem_dedupAux, curLookup_isSome]
  simp only [List.mem_filter, List.not_mem_nil, not_false_iff, and_true, bne_iff_ne, ne_eq]
  tauto

lemma histLookup_isSome (k : String) :
    ∀ hist : List HistoryItem,
      (histLookup hist k).isSome = true ↔
        ∃ e ∈ hist, histItemValid e = true ∧ e.key = k := by
  intro hist
  induction hist with
  | nil => simp [histLookup]
  | cons e rest ih =>
    rcases hrest : histLookup rest k with - | i
    · rw [hrest] at ih
      have hni : ¬ ∃ x ∈ rest, histItemValid x = true ∧ x.key = k := by simpa using ih
      simp only [histLookup, hrest]
      by_cases hc : e.key = k ∧ e.key ≠ ""
      · rw [if_pos hc]
        rcases hr : e.rank with - | r
        · refine iff_of_false (by simp) ?_
          rintro ⟨x, hx, hv, hk⟩
          rcases List.mem_cons.mp hx with rfl | hx
          · simp [histItemValid, hr] at hv
          · exact hni ⟨x, hx, hv, hk⟩
        · refine iff_of_true (by simp) ?_
          exact ⟨e, List.mem_cons_self _ _, by simp [histItemValid, hc.2, hr], hc.1⟩
      · rw [if_neg hc]
        refine iff_of_false (by simp) ?_
        rintro ⟨x, hx, hv, hk⟩
        rcases List.mem_cons.mp hx with rfl | hx
        · refine hc ⟨hk, ?_⟩
          simp only [histItemValid, Bool.and_eq_true, bne_iff_ne, ne_eq] at hv
          exact hv.1
        · exact hni ⟨x, hx, hv, hk⟩
    · rw [hrest] at ih
      simp only [histLookup, hrest]
      refine iff_of_true (by simp) ?_
      obtain ⟨x, hx, hv, hk⟩ := ih.mp rfl
      exact ⟨x, List.mem_cons_of_mem _ hx, hv, hk⟩

lemma mem_histKeys (hist : List HistoryItem) (k : String) :
    k ∈ histKeys hist ↔ (histLookup hist k).isSome = true := by
  unfold histKeys
  rw [mem_dedupAux, histLookup_isSome]
  simp only [List.mem_map, List.mem_filter, List.not_mem_nil, not_false_iff, and_true]
  constructor
  · rintro ⟨e, ⟨he, hv⟩, hk⟩
    exact ⟨e, he, hv, hk⟩
  · rintro ⟨e, he, hv, hk⟩
    exact ⟨e, ⟨he, hv⟩, hk⟩

/-- C4: for every pair of current results and history snapshot and every
common key (both lookups succeed), the rank-change record with
`rank_diff = history.rank − current.rank` is recorded iff that difference
is nonzero, the score-change record with `score_diff = current.score −
history.score` is recorded iff `|score_diff| ≥ 5`, and the reported trend
is the mean of the score diffs over the common keys (when any exist). The
final conjuncts are the spec's concrete scenario: history `{A: rank 1,
score 90}` against current `{A: rank 1, score 80}` yields `score_changes`
containing exactly A with `score_diff = −10` and an empty
`rank_changes`. -/
theorem compare_with_history_spec (cur : List CurrentEntry) (hist : List HistoryItem) :
    (∀ k c h, curLookup cur k = some c → histLookup hist k = some h →
      (((⟨k, h.rank, c.rank, h.rank - c.rank, c.score⟩ : RankChange) ∈ rankChangesAll cur hist)
          ↔ h.rank - c.rank ≠ 0)
      ∧ (∀ sc sh, c.score = some sc → h.score = some sh →
          (((⟨k, sh, sc, sc - sh⟩ : ScoreChange) ∈ scoreChangesAll cur hist) ↔ 5 ≤ |sc - sh|)))
    ∧ (scoreDiffs cur hist ≠ [] →
        avg_score_change cur hist =
          (scoreDiffs cur hist).sum / (scoreDiffs cur hist).length)
    ∧ (compare_with_history [⟨("A"), some 80⟩] [⟨("A"), some 1, some 90⟩]).score_changes =
        [⟨("A"), 90, 80, -10⟩]
    ∧ (compare_with_history [⟨("A"), some 80⟩] [⟨("A"), some 1, some 90⟩]).rank_changes = [] := by
  refine ⟨?_, ?_, ?_, by decide⟩
  · intro k c h hc hh
    have hkc : k ∈ commonKeys cur hist := by
      unfold commonKeys
      refine List.mem_filter.mpr ⟨(mem_curKeys cur k).mpr (by rw [hc]; rfl), by rw [hh]; rfl⟩
    refine ⟨⟨?_, ?_⟩, ?_⟩
    · intro hmem
      obtain ⟨k2, hk2, hf⟩ := List.mem_filterMap.mp hmem
      unfold rankChangeAt at hf
      rcases hc2 : curLookup cur k2 with - | c2 <;>
        rcases hh2 : histLookup hist k2 with - | h2 <;>
        rw [hc2, hh2] at hf <;> dsimp only at hf
      · cases hf
      · cases hf
      · cases hf
      · by_cases hd : h2.rank - c2.rank ≠ 0
        · rw [if_pos hd] at hf
          have hdd : h2.rank - c2.rank = h.rank - c.rank :=
            congrArg RankChange.rank_diff (Option.some_inj.mp hf)
          rw [hdd] at hd
          exact hd
        · rw [if_neg hd] at hf
          cases hf
    · intro hdiff
      refine List.mem_filterMap.mpr ⟨k, hkc, ?_⟩
      unfold rankChangeAt
      rw [hc, hh]
      dsimp only
      rw [if_pos hdiff]
    · intro sc sh hsc hsh
      constructor
      · intro hmem
        obtain ⟨k2, hk2, hf⟩ := List.mem_filterMap.mp hmem
        unfold scoreChangeAt at hf
        rcases hc2 : curLookup cur k2 with - | c2 <;>
          rcases hh2 : histLookup hist k2 with - | h2 <;>
          rw [hc2, hh2] at hf <;> dsimp only at hf
        · cases hf
        · cases hf
        · cases hf
        · rcases hsc2 : c2.score with - | sc2 <;>
            rcases hsh2 : h2.score with - | sh2 <;>
            rw [hsc2, hsh2] at hf <;> dsimp only at hf
          · cases hf
          · cases hf
          · cases hf
          · by_cases hd : 5 ≤ |sc2 - sh2|
            · rw [if_pos hd] at hf
              have hdd : sc2 - sh2 = sc - sh :=
                congrArg ScoreChange.score_diff (Option.some_inj.mp hf)
              rw [hdd] at hd
              exact hd
            · rw [if_neg hd] at hf
              cases hf
      · intro hdiff
        refine List.mem_filterMap.mpr ⟨k, hkc, ?_⟩
        unfold scoreChangeAt
        rw [hc, hh]
        dsimp only
        rw [hsc, hsh]
        dsimp only
        rw [if_pos hdiff]
  · intro h
    unfold avg_score_change
    rw [if_neg h]
  · have hck : commonKeys [(⟨("A"), some 80⟩ : CurrentEntry)]
        [(⟨("A"), some 1, some 90⟩ : HistoryItem)] = [("A")] := by decide
    have hcl : curLookup [(⟨("A"), some 80⟩ : CurrentEntry)] ("A") = some ⟨1, some 80⟩ := by
      decide
    have hhl : histLookup [(⟨("A"), some 1, some 90⟩ : HistoryItem)] ("A") =
        some ⟨1, some 90⟩ := by decide
    have h1 : scoreChangeAt [(⟨("A"), some 80⟩ : CurrentEntry)]
        [(⟨("A"), some 1, some 90⟩ : HistoryItem)] ("A") = some ⟨("A"), 90, 80, -10⟩ := by
      unfold scoreChangeAt
      rw [hcl, hhl]
      dsimp only
      rw [if_pos (by norm_num)]
      have : (80 : ℚ) - 90 = -10 := by norm_num
      rw [this]
    show (List.insertionSort scoreDescLe (scoreChangesAll _ _)).take 10 = _
    unfold scoreChangesAll
    rw [hck, List.filterMap_cons, h1]
    simp [List.insertionSort]

/-- Witness for C4: the concrete one-key scenario extracted from the
theorem. -/
theorem compare_with_history_spec_witness :
    (compare_with_history [⟨("A"), some 80⟩] [⟨("A"), some 1, some 90⟩]).score_changes =
        [⟨("A"), 90, 80, -10⟩]
    ∧ (compare_with_history [⟨("A"), some 80⟩] [⟨("A"), some 1, some 90⟩]).rank_changes = [] :=
  ⟨(compare_with_history_spec [] []).2.2.1, (compare_with_history_spec [] []).2.2.2⟩

lemma length_filterMap_of_isSome {α β : Type} (f : α → Option β) :
    ∀ l : List α, (∀ a ∈ l, (f a).isSome = true) → (l.filterMap f).length = l.length := by
  intro l
  induction l with
  | nil => simp
  | cons a t ih =>
    intro h
    have ha := h a (List.mem_cons_self _ _)
    obtain ⟨b, hb⟩ := Option.isSome_iff_exists.mp ha
    rw [List.filterMap_cons, hb]
    simp only [List.length_cons]
    rw [ih (fun x hx => h x (List.mem_cons_of_mem _ hx))]

lemma length_filter_filterMap {α β : Type} (f : α → Option β) (p : β → Bool) (g : α → Bool)
    (hpt : ∀ a, (match f a with | some b => p b = g a | none => g a = false)) :
    ∀ l : List α, ((l.filterMap f).filter p).length = (l.filter g).length := by
  intro l
  induction l with
  | nil => rfl
  | cons a t ih =>
    have h := hpt a
    rcases hfa : f a with - | b <;> rw [hfa] at h
    · rw [List.filterMap_cons, hfa, List.filter_cons, h]
      exact ih
    · rw [List.filterMap_cons, hfa, List.filter_cons, List.filter_cons, h]
      by_cases hb : g a = true
      · rw [hb]
        simp only [if_true, List.length_cons, ih]
      · rw [Bool.not_eq_true] at hb
        rw [hb]
        simp only [Bool.false_eq_true, if_false, ih]

lemma le_length_filter_take {α : Type} {r : α → α → Prop} {p : α → Bool}
    (hmono : ∀ a b, r a b → p b = true → p a = true) :
    ∀ l : List α, l.Pairwise r → ∀ n k : ℕ, k ≤ n →
      (k ≤ ((l.take n).filter p).length ↔ k ≤ (l.filter p).length) := by
  intro l
  induction l with
  | nil => simp
  | cons a t ih =>
    intro hpw n k hk
    have hpa := List.pairwise_cons.mp hpw
    rcases n with - | m
    · rw [Nat.le_zero.mp hk]
      simp
    · rw [List.take_succ_cons]
      by_cases hp : p a = true
      · rw [List.filter_cons, List.filter_cons, hp]
        simp only [if_true, List.length_cons]
        rcases k with - | j
        · simp
        · rw [Nat.succ_le_succ_iff, Nat.succ_le_succ_iff]
          exact ih hpa.2 m j (Nat.succ_le_succ_iff.mp hk)
      · have hall : ∀ x ∈ t, p x = false := by
          intro x hx
          rw [Bool.eq_false_iff]
          intro hcon
          exact hp (hmono a x (hpa.1 x hx) hcon)
        have h1 : t.filter p = [] := by
          rw [List.filter_eq_nil]
          intro x hx
          simp [hall x hx]
        have h2 : (t.take m).filter p = [] := by
          rw [List.filter_eq_nil]
          intro x hx
          simp [hall x (List.mem_of_mem_take hx)]
        rw [Bool.not_eq_true] at hp
        rw [List.filter_cons, List.filter_cons, hp]
        simp [h1, h2]

/-- The predicate counted by the update heuristic. -/
def bigRankDiff (x : RankChange) : Bool := decide (3 ≤ |x.rank_diff|)

lemma newIps_length (cur : List CurrentEntry) (hist : List HistoryItem) :
    (newIps cur hist).length = (newKeys cur hist).length := by
  unfold newIps
  rw [(List.perm_insertionSort rankLe _).length_eq]
  apply length_filterMap_of_isSome
  intro k hk
  have hkc : k ∈ curKeys cur := List.mem_filter.mp hk |>.1
  have := (mem_curKeys cur k).mp hkc
  obtain ⟨i, hi⟩ := Option.isSome_iff_exists.mp this
  simp [hi]

lemma removedIps_length (cur : List CurrentEntry) (hist : List HistoryItem) :
    (removedIps cur hist).length = (removedKeys cur hist).length := by
  unfold removedIps
  rw [(List.perm_insertionSort rankLe _).length_eq]
  apply length_filterMap_of_isSome
  intro k hk
  have hkc : k ∈ histKeys hist := List.mem_filter.mp hk |>.1
  have := (mem_histKeys hist k).mp hkc
  obtain ⟨i, hi⟩ := Option.isSome_iff_exists.mp this
  simp [hi]

lemma rankChangesAll_filter_big (cur : List CurrentEntry) (hist : List HistoryItem) :
    ((rankChangesAll cur hist).filter bigRankDiff).length = (significantKeys cur hist).length := by
  unfold rankChangesAll significantKeys
  apply length_filter_filterMap
  intro k
  unfold rankChangeAt
  rcases hc : curLookup cur k with - | c <;> rcases hh : histLookup hist k with - | h <;>
    dsimp only <;> try rfl
  by_cases hd : h.rank - c.rank ≠ 0
  · rw [if_pos hd]
    rfl
  · rw [if_neg hd]
    push_neg at hd
    dsimp only [bigRankDiff]
    rw [hd]
    simp

lemma big_count_iff (cur : List CurrentEntry) (hist : List HistoryItem) :
    3 ≤ (((List.insertionSort rankDescLe (rankChangesAll cur hist)).take 10).filter
        bigRankDiff).length
      ↔ 3 ≤ (significantKeys cur hist).length := by
  have hmono : ∀ a b : RankChange, rankDescLe a b → bigRankDiff b = true → bigRankDiff a = true := by
    intro a b hr hb
    unfold rankDescLe at hr
    unfold bigRankDiff at hb ⊢
    rw [decide_eq_true_eq] at hb
    rw [decide_eq_true_eq]
    omega
  have hsorted : (List.insertionSort rankDescLe (rankChangesAll cur hist)).Pairwise rankDescLe :=
    List.sorted_insertionSort rankDescLe _
  rw [le_length_filter_take hmono _ hsorted 10 3 (by omega)]
  rw [((List.perm_insertionSort rankDescLe (rankChangesAll cur hist)).filter _).length_eq]
  rw [rankChangesAll_filter_big]

/-- C6 counterexample: a run with no new and no removed keys but one rank
change is classified `stable` by the code, while the claim requires
`consider` when any change exists. -/
theorem recommendation_not_iff_any_change :
    recommendation (compare_with_history [⟨("a"), some 50⟩] [⟨("a"), some 2, some 50⟩]) =
        Recommendation.stable
    ∧ rankChangesAll [⟨("a"), some 50⟩] [⟨("a"), some 2, some 50⟩] ≠ [] := by
  constructor
  · decide
  · decide

/-- C6 amended: the recommendation is `update` iff at least 3 keys are
new, at least 3 are removed, or at least 3 common keys moved in rank by at
least 3 (the top-10 display truncation of `rank_changes` cannot change
this, because the list is sorted by `|rank_diff|` descending); otherwise
it is `consider` iff any key was added or removed (rank-only or score-only
changes do NOT trigger `consider` in the code); otherwise it is
`stable`. -/
theorem recommendation_spec (cur : List CurrentEntry) (hist : List HistoryItem) :
    (recommendation (compare_with_history cur hist) = Recommendation.update ↔
      (3 ≤ (newKeys cur hist).length ∨ 3 ≤ (removedKeys cur hist).length ∨
        3 ≤ (significantKeys cur hist).length))
    ∧ (recommendation (compare_with_history cur hist) = Recommendation.consider ↔
      (¬ (3 ≤ (newKeys cur hist).length ∨ 3 ≤ (removedKeys cur hist).length ∨
          3 ≤ (significantKeys cur hist).length) ∧
        (newKeys cur hist ≠ [] ∨ removedKeys cur hist ≠ [])))
    ∧ (recommendation (compare_with_history cur hist) = Recommendation.stable ↔
      (newKeys cur hist = [] ∧ removedKeys cur hist = [] ∧
        ¬ 3 ≤ (significantKeys cur hist).length)) := by
  have hA : (compare_with_history cur hist).new_ips.length = (newKeys cur hist).length :=
    newIps_length cur hist
  have hB : (compare_with_history cur hist).removed_ips.length =
      (removedKeys cur hist).length := removedIps_length cur hist
  have hC : (3 ≤ ((compare_with_history cur hist).rank_changes.filter
        (fun x => decide (3 ≤ |x.rank_diff|))).length)
      ↔ 3 ≤ (significantKeys cur hist).length := big_count_iff cur hist
  have hcond : (3 ≤ (compare_with_history cur hist).new_ips.length ∨
        3 ≤ (compare_with_history cur hist).removed_ips.length ∨
        3 ≤ ((compare_with_history cur hist).rank_changes.filter
          (fun x => decide (3 ≤ |x.rank_diff|))).length)
      ↔ (3 ≤ (newKeys cur hist).length ∨ 3 ≤ (removedKeys cur hist).length ∨
        3 ≤ (significantKeys cur hist).length) := by
    rw [hA, hB]
    exact or_congr Iff.rfl (or_congr Iff.rfl hC)
  have hcond2 : (0 < (compare_with_history cur hist).new_ips.length ∨
        0 < (compare_with_history cur hist).removed_ips.length)
      ↔ (newKeys cur hist ≠ [] ∨ removedKeys cur hist ≠ []) := by
    rw [hA, hB, List.length_pos, List.length_pos]
  refine ⟨?_, ?_, ?_⟩
  · unfold recommendation
    by_cases h1 : (3 ≤ (compare_with_history cur hist).new_ips.length ∨
        3 ≤ (compare_with_history cur hist).removed_ips.length ∨
        3 ≤ ((compare_with_history cur hist).rank_changes.filter
          (fun x => decide (3 ≤ |x.rank_diff|))).length)
    · rw [if_pos h1]
      exact iff_of_true rfl (hcond.mp h1)
    · rw [if_neg h1]
      refine iff_of_false ?_ (fun hu => h1 (hcond.mpr hu))
      split_ifs <;> simp
  · unfold recommendation
    by_cases h1 : (3 ≤ (compare_with_history cur hist).new_ips.length ∨
        3 ≤ (compare_with_history cur hist).removed_ips.length ∨
        3 ≤ ((compare_with_history cur hist).rank_changes.filter
          (fun x => decide (3 ≤ |x.rank_diff|))).length)
    · rw [if_pos h1]
      refine iff_of_false (by simp) ?_
      rintro ⟨hn, -⟩
      exact hn (hcond.mp h1)
    · rw [if_neg h1]
      by_cases h2 : (0 < (compare_with_history cur hist).new_ips.length ∨
          0 < (compare_with_history cur hist).removed_ips.length)
      · rw [if_pos h2]
        exact iff_of_true rfl ⟨fun hu => h1 (hcond.mpr hu), hcond2.mp h2⟩
      · rw [if_neg h2]
        refine iff_of_false (by simp) ?_
        rintro ⟨-, hc2⟩
        exact h2 (hcond2.mpr hc2)
  · unfold recommendation
    by_cases h1 : (3 ≤ (compare_with_history cur hist).new_ips.length ∨
        3 ≤ (compare_with_history cur hist).removed_ips.length ∨
        3 ≤ ((compare_with_history cur hist).rank_changes.filter
          (fun x => decide (3 ≤ |x.rank_diff|))).length)
    · rw [if_pos h1]
      refine iff_of_false (by simp) ?_
      rintro ⟨hn, hr, hs⟩
      rcases hcond.mp h1 with h | h | h
      · rw [hn] at h
        simp at h
      · rw [hr] at h
        simp at h
      · exact hs h
    · rw [if_neg h1]
      by_cases h2 : (0 < (compare_with_history cur hist).new_ips.length ∨
          0 < (compare_with_history cur hist).removed_ips.length)
      · rw [if_pos h2]
        refine iff_of_false (by simp) ?_
        rintro ⟨hn, hr, -⟩
        rcases hcond2.mp h2 with h | h
        · exact h hn
        · exact h hr
      · rw [if_neg h2]
        refine iff_of_true rfl ?_
        push_neg at h2
        rw [hA, hB] at h2
        obtain ⟨hn, hr⟩ := h2
        refine ⟨List.length_eq_zero.mp (by omega), List.length_eq_zero.mp (by omega), ?_⟩
        intro hs
        exact h1 (hcond.mpr (Or.inr (Or.inr hs)))

/-- Witness for the amended C6: the one-rank-change scenario is `stable`,
agreeing with the amended conditions. -/
theorem recommendation_spec_witness :
    recommendation (compare_with_history [⟨("a"), some 50⟩] [⟨("a"), some 2, some 50⟩]) =
        Recommendation.stable ↔
      (newKeys [⟨("a"), some 50⟩] [⟨("a"), some 2, some 50⟩] = [] ∧
        removedKeys [⟨("a"), some 50⟩] [⟨("a"), some 2, some 50⟩] = [] ∧
        ¬ 3 ≤ (significantKeys [⟨("a"), some 50⟩] [⟨("a"), some 2, some 50⟩]).length) :=
  (recommendation_spec [⟨("a"), some 50⟩] [⟨("a"), some 2, some 50⟩]).2.2

lemma histLookup_empty_key : ∀ hist : List HistoryItem, histLookup hist ("") = none := by
  intro hist
  induction hist with
  | nil => rfl
  | cons e rest ih =>
    simp only [histLookup, ih]
    rw [if_neg]
    rintro ⟨h1, h2⟩
    exact h2 h1

lemma histLookup_asHistoryFrom_of_not_mem (k : String) :
    ∀ (l : List CurrentEntry) (r : ℤ), k ∉ l.map (fun e => e.key) →
      histLookup (asHistoryFrom r l) k = none := by
  intro l
  induction l with
  | nil =>
    intro r _
    rfl
  | cons e rest ih =>
    intro r hmem
    rw [List.map_cons, List.mem_cons] at hmem
    push_neg at hmem
    simp only [asHistoryFrom, histLookup, ih (r + 1) hmem.2]
    rw [if_neg]
    rintro ⟨h1, -⟩
    exact hmem.1 h1.symm

lemma histLookup_asHistoryFrom (k : String) (hk : k ≠ "") :
    ∀ (l : List CurrentEntry) (r : ℤ),
      ((l.map (fun e => e.key)).filter (fun s => s != "")).Nodup →
      histLookup (asHistoryFrom r l) k = curLookupFrom r l k := by
  intro l
  induction l with
  | nil =>
    intro r _
    rfl
  | cons e rest ih =>
    intro r hnd
    by_cases he : e.key = k
    · have hne : (k != "") = true := by simp [hk]
      have hkr : k ∉ rest.map (fun e => e.key) := by
        intro hmem
        have hmem2 : k ∈ (rest.map (fun e => e.key)).filter (fun s => s != "") :=
          List.mem_filter.mpr ⟨hmem, hne⟩
        rw [List.map_cons, List.filter_cons, he, if_pos hne] at hnd
        exact (List.nodup_cons.mp hnd).1 hmem2
      simp only [asHistoryFrom, histLookup, curLookupFrom,
        histLookup_asHistoryFrom_of_not_mem k rest (r + 1) hkr]
      rw [if_pos ⟨he, by rw [he]; exact hk⟩, if_pos he]
    · have hnd2 : ((rest.map (fun e => e.key)).filter (fun s => s != "")).Nodup := by
        rw [List.map_cons, List.filter_cons] at hnd
        by_cases hcond : (e.key != "") = true
        · rw [if_pos hcond] at hnd
          exact (List.nodup_cons.mp hnd).2
        · rw [if_neg hcond] at hnd
          exact hnd
      simp only [asHistoryFrom, histLookup, curLookupFrom, ih (r + 1) hnd2]
      rcases curLookupFrom (r + 1) rest k with - | i
      · dsimp only
        rw [if_neg (fun hc => he hc.1), if_neg he]
      · dsimp only
        rw [if_neg he]

/-- With duplicate-free (nonempty) keys, reading a snapshot back as the
history side reproduces exactly the current-side map: same keys, same
positional ranks, same scores. -/
lemma histLookup_asHistory (l : List CurrentEntry)
    (hnd : ((l.map (fun e => e.key)).filter (fun s => s != "")).Nodup) (k : String) :
    histLookup (asHistory l) k = curLookup l k := by
  by_cases hk : k = ""
  · rw [hk, histLookup_empty_key]
    unfold curLookup
    rw [if_pos rfl]
  · unfold asHistory curLookup
    rw [if_neg hk]
    exact histLookup_asHistoryFrom k hk l 1 hnd

lemma mem_commonKeys (cur : List CurrentEntry) (hist : List HistoryItem) (k : String) :
    k ∈ commonKeys cur hist ↔
      (curLookup cur k).isSome = true ∧ (histLookup hist k).isSome = true := by
  unfold commonKeys
  rw [List.mem_filter, mem_curKeys]

lemma mem_newKeys (cur : List CurrentEntry) (hist : List HistoryItem) (k : String) :
    k ∈ newKeys cur hist ↔
      (curLookup cur k).isSome = true ∧ ¬ (histLookup hist k).isSome = true := by
  unfold newKeys
  rw [List.mem_filter, mem_curKeys]
  simp

lemma mem_removedKeys (cur : List CurrentEntry) (hist : List HistoryItem) (k : String) :
    k ∈ removedKeys cur hist ↔
      (histLookup hist k).isSome = true ∧ ¬ (curLookup cur k).isSome = true := by
  unfold removedKeys
  rw [List.mem_filter, mem_histKeys]
  simp

lemma mem_rankChangesAll_iff (cur : List CurrentEntry) (hist : List HistoryItem)
    (k : String) (d : ℤ) :
    (∃ e ∈ rankChangesAll cur hist, e.target = k ∧ e.rank_diff = d) ↔
      (∃ c h, curLookup cur k = some c ∧ histLookup hist k = some h ∧
        h.rank - c.rank = d ∧ d ≠ 0) := by
  constructor
  · rintro ⟨e, hmem, htgt, hdiff⟩
    obtain ⟨k2, hk2, hf⟩ := List.mem_filterMap.mp hmem
    unfold rankChangeAt at hf
    rcases hc2 : curLookup cur k2 with - | c2 <;>
      rcases hh2 : histLookup hist k2 with - | h2 <;>
      rw [hc2, hh2] at hf <;> dsimp only at hf
    · cases hf
    · cases hf
    · cases hf
    · by_cases hd : h2.rank - c2.rank ≠ 0
      · rw [if_pos hd] at hf
        obtain rfl := Option.some_inj.mp hf
        dsimp only at htgt hdiff
        subst htgt
        subst hdiff
        exact ⟨c2, h2, hc2, hh2, rfl, hd⟩
      · rw [if_neg hd] at hf
        cases hf
  · rintro ⟨c, h, hc, hh, hdd, hd0⟩
    have hkc : k ∈ commonKeys cur hist :=
      (mem_commonKeys cur hist k).mpr ⟨by rw [hc]; rfl, by rw [hh]; rfl⟩
    refine ⟨⟨k, h.rank, c.rank, h.rank - c.rank, c.score⟩,
      List.mem_filterMap.mpr ⟨k, hkc, ?_⟩, rfl, hdd⟩
    unfold rankChangeAt
    rw [hc, hh]
    dsimp only
    rw [if_pos (by rw [hdd]; exact hd0)]

lemma mem_scoreChangesAll_iff (cur : List CurrentEntry) (hist : List HistoryItem)
    (k : String) (d : ℚ) :
    (∃ e ∈ scoreChangesAll cur hist, e.target = k ∧ e.score_diff = d) ↔
      (∃ c h sc sh, curLookup cur k = some c ∧ histLookup hist k = some h ∧
        c.score = some sc ∧ h.score = some sh ∧ sc - sh = d ∧ 5 ≤ |d|) := by
  constructor
  · rintro ⟨e, hmem, htgt, hdiff⟩
    obtain ⟨k2, hk2, hf⟩ := List.mem_filterMap.mp hmem
    unfold scoreChangeAt at hf
    rcases hc2 : curLookup cur k2 with - | c2 <;>
      rcases hh2 : histLookup hist k2 with - | h2 <;>
      rw [hc2, hh2] at hf <;> dsimp only at hf
    · cases hf
    · cases hf
    · cases hf
    · rcases hsc2 : c2.score with - | sc2 <;>
        rcases hsh2 : h2.score with - | sh2 <;>
        rw [hsc2, hsh2] at hf <;> dsimp only at hf
      · cases hf
      · cases hf
      · cases hf
      · by_cases hd : 5 ≤ |sc2 - sh2|
        · rw [if_pos hd] at hf
          obtain rfl := Option.some_inj.mp hf
          dsimp only at htgt hdiff
          subst htgt
          subst hdiff
          exact ⟨c2, h2, sc2, sh2, hc2, hh2, hsc2, hsh2, rfl, hd⟩
        · rw [if_neg hd] at hf
          cases hf
  · rintro ⟨c, h, sc, sh, hc, hh, hsc, hsh, hdd, hd5⟩
    have hkc : k ∈ commonKeys cur hist :=
      (mem_commonKeys cur hist k).mpr ⟨by rw [hc]; rfl, by rw [hh]; rfl⟩
    refine ⟨⟨k, sh, sc, sc - sh⟩, List.mem_filterMap.mpr ⟨k, hkc, ?_⟩, rfl, hdd⟩
    unfold scoreChangeAt
    rw [hc, hh]
    dsimp only
    rw [hsc, hsh]
    dsimp only
    rw [if_pos (by rw [hdd]; exact hd5)]

lemma mem_newIps_fst (cur : List CurrentEntry) (hist : List HistoryItem) (k : String) :
    k ∈ (newIps cur hist).map Prod.fst ↔ k ∈ newKeys cur hist := by
  unfold newIps
  rw [List.mem_map]
  constructor
  · rintro ⟨p, hp, rfl⟩
    have hp2 := (List.perm_insertionSort rankLe _).mem_iff.mp hp
    obtain ⟨k2, hk2, hf⟩ := List.mem_filterMap.mp hp2
    rcases hc2 : curLookup cur k2 with - | i <;> rw [hc2] at hf <;>
      simp only [Option.map_none', Option.map_some'] at hf
    · cases hf
    · obtain rfl := Option.some_inj.mp hf
      exact hk2
  · intro hk
    have hsome := (mem_curKeys cur k).mp (List.mem_filter.mp hk).1
    obtain ⟨i, hi⟩ := Option.isSome_iff_exists.mp hsome
    refine ⟨(k, i), ?_, rfl⟩
    rw [(List.perm_insertionSort rankLe _).mem_iff]
    exact List.mem_filterMap.mpr ⟨k, hk, by rw [hi]; rfl⟩

lemma mem_removedIps_fst (cur : List CurrentEntry) (hist : List HistoryItem) (k : String) :
    k ∈ (removedIps cur hist).map Prod.fst ↔ k ∈ removedKeys cur hist := by
  unfold removedIps
  rw [List.mem_map]
  constructor
  · rintro ⟨p, hp, rfl⟩
    have hp2 := (List.perm_insertionSort rankLe _).mem_iff.mp hp
    obtain ⟨k2, hk2, hf⟩ := List.mem_filterMap.mp hp2
    rcases hh2 : histLookup hist k2 with - | i <;> rw [hh2] at hf <;>
      simp only [Option.map_none', Option.map_some'] at hf
    · cases hf
    · obtain rfl := Option.some_inj.mp hf
      exact hk2
  · intro hk
    have hsome := (mem_histKeys hist k).mp (List.mem_filter.mp hk).1
    obtain ⟨i, hi⟩ := Option.isSome_iff_exists.mp hsome
    refine ⟨(k, i), ?_, rfl⟩
    rw [(List.perm_insertionSort rankLe _).mem_iff]
    exact List.mem_filterMap.mpr ⟨k, hk, by rw [hi]; rfl⟩

lemma scoreDiffAt_symm (A B : List CurrentEntry)
    (hA : ((A.map (fun e => e.key)).filter (fun s => s != "")).Nodup)
    (hB : ((B.map (fun e => e.key)).filter (fun s => s != "")).Nodup) (k : String) :
    scoreDiffAt B (asHistory A) k = (scoreDiffAt A (asHistory B) k).map Neg.neg := by
  unfold scoreDiffAt
  rw [histLookup_asHistory A hA k, histLookup_asHistory B hB k]
  rcases curLookup A k with - | c <;> rcases curLookup B k with - | h <;> dsimp only
  · rfl
  · rfl
  · rfl
  · rcases c.score with - | sc <;> rcases h.score with - | sh <;> dsimp only
    · rfl
    · rfl
    · rfl
    · simp only [Option.map_some']
      rw [neg_sub]

lemma commonKeys_nodup (cur : List CurrentEntry) (hist : List HistoryItem) :
    (commonKeys cur hist).Nodup := by
  unfold commonKeys curKeys
  exact (dedupAux_nodup _ _).filter _

lemma scoreDiffs_symm_perm (A B : List CurrentEntry)
    (hA : ((A.map (fun e => e.key)).filter (fun s => s != "")).Nodup)
    (hB : ((B.map (fun e => e.key)).filter (fun s => s != "")).Nodup) :
    (scoreDiffs B (asHistory A)).Perm ((scoreDiffs A (asHistory B)).map Neg.neg) := by
  have hperm : (commonKeys B (asHistory A)).Perm (commonKeys A (asHistory B)) := by
    refine (List.perm_ext_iff_of_nodup (commonKeys_nodup _ _) (commonKeys_nodup _ _)).mpr ?_
    intro k
    rw [mem_commonKeys, mem_commonKeys, histLookup_asHistory A hA k,
      histLookup_asHistory B hB k]
    exact and_comm
  unfold scoreDiffs
  rw [List.filterMap_congr (fun k _ => scoreDiffAt_symm A B hA hB k),
    ← List.map_filterMap]
  exact (hperm.filterMap _).map _

/-- C7 counterexample: the swap symmetry fails on reachable snapshots
with a duplicated key. With snapshot `A` holding two entries under the
same key (the exact-string dedup of `load_targets` keeps both, and
`save_history` persists both) and snapshot `B` holding one, the diff with
`A` current records nothing for that key (`current_map` keeps the first,
better-ranked occurrence, so `rank_diff = 1 − 1 = 0`), while the swapped
diff records `rank_diff = 1` (`history_map` keeps the last occurrence,
rank 2) — so the recorded rank diffs of the two directions are not
negations of each other. -/
theorem compare_with_history_symm_counterexample :
    rankChangesAll [⟨("k"), some 10⟩, ⟨("k"), some 90⟩]
        (asHistory [⟨("k"), some 50⟩]) = []
    ∧ rankChangesAll [⟨("k"), some 50⟩]
        (asHistory [⟨("k"), some 10⟩, ⟨("k"), some 90⟩]) =
      [⟨("k"), 2, 1, 1, some 50⟩] :=
  ⟨by decide, by decide⟩

/-- C7 amended: restricted to snapshots whose nonempty keys are
duplicate-free (on a duplicated key the keep-first current map and the
keep-last history map disagree, and symmetry fails, as the counterexample
shows), running the diff with the roles of current and history swapped
swaps the `new` and `removed` key sets exactly, negates every recorded
`rank_diff` and `score_diff` (an entry for key `k` with difference `d`
exists in one direction iff the entry with difference `−d` exists in the
other), and negates the trend. -/
theorem compare_with_history_symm (A B : List CurrentEntry)
    (hA : ((A.map (fun e => e.key)).filter (fun s => s != "")).Nodup)
    (hB : ((B.map (fun e => e.key)).filter (fun s => s != "")).Nodup) :
    (∀ k, k ∈ (compare_with_history A (asHistory B)).new_ips.map Prod.fst ↔
        k ∈ (compare_with_history B (asHistory A)).removed_ips.map Prod.fst)
    ∧ (∀ k, k ∈ (compare_with_history A (asHistory B)).removed_ips.map Prod.fst ↔
        k ∈ (compare_with_history B (asHistory A)).new_ips.map Prod.fst)
    ∧ (∀ k d, (∃ e ∈ rankChangesAll A (asHistory B), e.target = k ∧ e.rank_diff = d) ↔
        (∃ e ∈ rankChangesAll B (asHistory A), e.target = k ∧ e.rank_diff = -d))
    ∧ (∀ k d, (∃ e ∈ scoreChangesAll A (asHistory B), e.target = k ∧ e.score_diff = d) ↔
        (∃ e ∈ scoreChangesAll B (asHistory A), e.target = k ∧ e.score_diff = -d))
    ∧ avg_score_change B (asHistory A) = - avg_score_change A (asHistory B) := by
  refine ⟨?_, ?_, ?_, ?_, ?_⟩
  · intro k
    show k ∈ (newIps A (asHistory B)).map Prod.fst ↔
      k ∈ (removedIps B (asHistory A)).map Prod.fst
    rw [mem_newIps_fst, mem_removedIps_fst, mem_newKeys, mem_removedKeys,
      histLookup_asHistory A hA k, histLookup_asHistory B hB k]
  · intro k
    show k ∈ (removedIps A (asHistory B)).map Prod.fst ↔
      k ∈ (newIps B (asHistory A)).map Prod.fst
    rw [mem_newIps_fst, mem_removedIps_fst, mem_newKeys, mem_removedKeys,
      histLookup_asHistory A hA k, histLookup_asHistory B hB k]
  · intro k d
    rw [mem_rankChangesAll_iff, mem_rankChangesAll_iff]
    constructor
    · rintro ⟨c, h, hc, hh, hdd, hd0⟩
      rw [histLookup_asHistory B hB k] at hh
      refine ⟨h, c, hh, ?_, ?_, ?_⟩
      · rw [histLookup_asHistory A hA k]
        exact hc
      · omega
      · omega
    · rintro ⟨c, h, hc, hh, hdd, hd0⟩
      rw [histLookup_asHistory A hA k] at hh
      refine ⟨h, c, hh, ?_, ?_, ?_⟩
      · rw [histLookup_asHistory B hB k]
        exact hc
      · omega
      · omega
  · intro k d
    rw [mem_scoreChangesAll_iff, mem_scoreChangesAll_iff]
    constructor
    · rintro ⟨c, h, sc, sh, hc, hh, hsc, hsh, hdd, hd5⟩
      rw [histLookup_asHistory B hB k] at hh
      refine ⟨h, c, sh, sc, hh, ?_, hsh, hsc, by linarith, by rw [abs_neg]; exact hd5⟩
      rw [histLookup_asHistory A hA k]
      exact hc
    · rintro ⟨c, h, sc, sh, hc, hh, hsc, hsh, hdd, hd5⟩
      rw [histLookup_asHistory A hA k] at hh
      refine ⟨h, c, sh, sc, hh, ?_, hsh, hsc, by linarith, ?_⟩
      · rw [histLookup_asHistory B hB k]
        exact hc
      · rw [← abs_neg]
        exact hd5
  · have hp := scoreDiffs_symm_perm A B hA hB
    unfold avg_score_change
    by_cases hnil : scoreDiffs A (asHistory B) = []
    · have hnil2 : scoreDiffs B (asHistory A) = [] := by
        have := hp.length_eq
        rw [hnil] at this
        simpa using List.length_eq_zero.mp (by simpa using this)
      rw [if_pos hnil, if_pos hnil2]
      norm_num
    · have hnil2 : scoreDiffs B (asHistory A) ≠ [] := by
        intro hcon
        rw [hcon] at hp
        have := hp.symm.length_eq
        simp at this
        exact hnil (List.length_eq_zero.mp (by simp [this]))
      rw [if_neg hnil2, if_neg hnil, hp.sum_eq, hp.length_eq, List.length_map,
        ← List.sum_neg, neg_div]

/-- Witness for C7: swapping two concrete two-entry snapshots negates the
trend. -/
theorem compare_with_history_symm_witness :
    avg_score_change [⟨("y"), some 30⟩, ⟨("z"), some 5⟩]
        (asHistory [⟨("x"), some 10⟩, ⟨("y"), some 20⟩]) =
      - avg_score_change [⟨("x"), some 10⟩, ⟨("y"), some 20⟩]
        (asHistory [⟨("y"), some 30⟩, ⟨("z"), some 5⟩]) :=
  (compare_with_history_symm [⟨("x"), some 10⟩, ⟨("y"), some 20⟩]
    [⟨("y"), some 30⟩, ⟨("z"), some 5⟩] (by decide) (by decide)).2.2.2.2

end HistoryDiff

end Bestip
